import Mathlib

/-!
A shallow embedding of the type-interning shorthand codec of
`src/compiler/rustc_middle/src/ty/codec.rs`, together with proofs about it.

The file models:
  * the variable-length (LEB128) integer codec used by the byte-cursor
    encoder/decoder (modelled from the spec, §4.1 — the cursor codec itself
    lives outside the given sources);
  * the encoder state with its two per-kind shorthand caches
    (`type_shorthands`, `predicate_shorthands`), as used by the code;
  * `encode_with_shorthand` (codec.rs lines 72-108);
  * the `Encodable`/`Decodable` impls for `Ty`, `Binder<PredicateKind>`,
    `Region` and `Const` (codec.rs lines 110-141 and 189-261, 312-316);
  * the decoder state with the per-decoder position-to-type cache and the
    primitives `read_usize`, `positioned_at_shorthand`, `with_position`,
    `cached_ty_for_shorthand` (modelled from the spec; their implementations
    live in the opaque decoder / `TyDecoder` impls outside the given sources).

Interning is modelled structurally: the spec (§4.3) guarantees that handles
compare equal exactly when the underlying values are structurally equal, so an
entity handle is represented by the structural value itself and the interner
hooks (`mk_ty`, `mk_region`, ...) are identities.
-/

/-- The shorthand encoding uses an enum's variant index `usize` and is offset
by this value so it never matches a real variant (codec.rs line 31). -/
def SHORTHAND_OFFSET : Nat := 0x80

/-! ### The variable-length integer codec

Modelled from the spec: "Integers are encoded with a variable-length
(LEB128-style) scheme so small values occupy fewer bytes" (§4.1); the
underlying writer/reader (`rustc_serialize::leb128`) is not among the given
sources.  Each emitted byte carries 7 payload bits; a byte below `0x80`
terminates the integer. -/

/-- Structural worker for `leb128Write`: the first argument is an iteration
bound (the value itself always suffices, since the value shrinks by a factor
of at least 128 per emitted byte). -/
def leb128WriteFuel : Nat → Nat → List Nat
  | 0, n => [n]
  | fuel + 1, n =>
    if n < 128 then [n] else (n % 128 + 128) :: leb128WriteFuel fuel (n / 128)

/-- Write a `usize` in unsigned LEB128: low 7 bits per byte, high bit set on
every byte except the last. -/
def leb128Write (n : Nat) : List Nat := leb128WriteFuel n n

/-- The iteration bound of `leb128WriteFuel` is irrelevant once it is at
least the value. -/
theorem leb128WriteFuel_congr :
    ∀ {fuel fuel2 n : Nat}, n ≤ fuel → n ≤ fuel2 →
      leb128WriteFuel fuel n = leb128WriteFuel fuel2 n := by
  intro fuel
  induction fuel with
  | zero =>
    intro fuel2 n h1 _
    obtain rfl : n = 0 := by omega
    cases fuel2 with
    | zero => rfl
    | succ f2 => simp [leb128WriteFuel]
  | succ fuel ih =>
    intro fuel2 n h1 h2
    by_cases hn : n < 128
    · cases fuel2 with
      | zero =>
        obtain rfl : n = 0 := by omega
        simp [leb128WriteFuel]
      | succ f2 => simp [leb128WriteFuel, hn]
    · have h128 : 128 ≤ n := by omega
      cases fuel2 with
      | zero => omega
      | succ f2 =>
        simp only [leb128WriteFuel, if_neg hn]
        have hd : n / 128 < n := Nat.div_lt_self (by omega) (by omega)
        rw [ih (show n / 128 ≤ fuel by omega) (show n / 128 ≤ f2 by omega)]

/-- Read an unsigned LEB128 integer from the front of a byte list, returning
the value and the number of bytes consumed. -/
def leb128Read : List Nat → Option (Nat × Nat)
  | [] => none
  | b :: rest =>
    if b < 128 then some (b, 1)
    else (leb128Read rest).map fun vk => (b - 128 + 128 * vk.1, vk.2 + 1)

/-! ### Entity kinds

Modelled from the spec (§3, §9): the entity kinds themselves
(`ty::TyKind`, `ty::PredicateKind`, `ty::RegionKind`,
`ty::BoundVariableKind`, `ty::ConstS`) are defined in parts of
`rustc_middle` that are not among the given sources, so they are modelled as
representative closed enumerations ("explicit closed enumeration of entity
kinds", §9), each variant identified by its discriminant.  `TyKind` has
leaf variants, a variant with an integer payload and variants with nested
(interned, shorthand-encoded) type fields, so that deeply nested and shared
values exist; `PredicateKind` includes a single-byte-discriminant variant
with no body (the spec's own minimal test payload, §8). -/

/-- Structural model of an interned type (`Ty` / its `TyKind` variant). -/
inductive TyKind where
  | bool
  | uint (n : Nat)
  | ref (t : TyKind)
  | tup2 (a b : TyKind)
deriving DecidableEq, Repr

/-- Structural model of an interned region (`Region` / `RegionKind`). -/
inductive RegionKind where
  | reStatic
  | reVar (n : Nat)
deriving DecidableEq, Repr

/-- Structural model of `ty::BoundVariableKind`. -/
inductive BoundVariableKind where
  | bvRegion
  | bvTy
deriving DecidableEq, Repr

/-- Structural model of `ty::PredicateKind` (the binder body). -/
inductive PredicateKind where
  | ambiguous
  | wellFormed (t : TyKind)
  | regionOutlives (a b : RegionKind)
deriving DecidableEq, Repr

/-- Structural model of `ty::Binder<PredicateKind>`: a body paired with its
bound-variable list (`bound_vars`). -/
structure BinderPredicate where
  boundVars : List BoundVariableKind
  body : PredicateKind
deriving DecidableEq, Repr

/-- Structural model of `ty::ConstS` (the interned payload of `Const`):
a type together with its value payload. -/
structure ConstS where
  ty : TyKind
  val : Nat
deriving DecidableEq, Repr

/-- Variant index of a `TyKind` value (`intrinsics::discriminant_value`). -/
def tyDiscr : TyKind → Nat
  | .bool => 0
  | .uint _ => 1
  | .ref _ => 2
  | .tup2 _ _ => 3

/-- Variant index of a `RegionKind` value. -/
def regionDiscr : RegionKind → Nat
  | .reStatic => 0
  | .reVar _ => 1

/-- Variant index of a `BoundVariableKind` value. -/
def bvDiscr : BoundVariableKind → Nat
  | .bvRegion => 0
  | .bvTy => 1

/-- Variant index of a `PredicateKind` value. -/
def predDiscr : PredicateKind → Nat
  | .ambiguous => 0
  | .wellFormed _ => 1
  | .regionOutlives _ _ => 2

/-! ### The encoder

The encoder state is the growable byte buffer plus the session-scoped
shorthand caches.  The `TyEncoder` trait itself is outside the given sources;
the code in codec.rs consults exactly two caches on it,
`TyEncoder::type_shorthands` (line 112) and `TyEncoder::predicate_shorthands`
(line 121), which the spec describes as "an encoder-embedded mutable map ...
one per entity kind, session-scoped" (§3, §9).  `FxHashMap` is modelled as an
association list with lookup keyed by structural equality; `insert` prepends,
so a later insert shadows an earlier binding, as for a hash map.

The extra field `regionShorthands` is not consulted by any of the code-derived
functions below; it is modelled from the spec solely so that the dedicated
per-Region cache asserted by the spec (§4.4) can be stated and compared
against the code's behavior. -/

/-- Look up a key in an association-list cache (first match wins). -/
def cacheLookup {K V : Type} [DecidableEq K] : List (K × V) → K → Option V
  | [], _ => none
  | kv :: rest, k => if kv.1 = k then some kv.2 else cacheLookup rest k

/-- Insert a binding into an association-list cache (shadowing any older
binding for the same key, like `FxHashMap::insert`). -/
def cacheInsert {K V : Type} (c : List (K × V)) (k : K) (v : V) : List (K × V) :=
  (k, v) :: c

/-- The encoding session state: byte buffer plus session-scoped caches. -/
structure Encoder where
  data : List Nat
  typeShorthands : List (TyKind × Nat)
  predicateShorthands : List (PredicateKind × Nat)
  regionShorthands : List (RegionKind × Nat)
deriving DecidableEq, Repr

/-- Current stream offset of the encoder (`encoder.position()`). -/
def Encoder.position (e : Encoder) : Nat := e.data.length

/-- Append one variable-length integer to the stream (`encoder.emit_usize`).
Modelled from the spec (§4.1); the opaque byte-cursor encoder is outside the
given sources. -/
def Encoder.emit_usize (e : Encoder) (n : Nat) : Encoder :=
  { e with data := e.data ++ leb128Write n }

/-- Replace the type-shorthand cache (mutation through
`TyEncoder::type_shorthands`). -/
def Encoder.setTypeShorthands (e : Encoder) (c : List (TyKind × Nat)) : Encoder :=
  { e with typeShorthands := c }

/-- Replace the predicate-shorthand cache (mutation through
`TyEncoder::predicate_shorthands`). -/
def Encoder.setPredicateShorthands (e : Encoder) (c : List (PredicateKind × Nat)) : Encoder :=
  { e with predicateShorthands := c }

/-- Replace the spec-asserted region-shorthand cache (no code-derived
function touches this field). -/
def Encoder.setRegionShorthands (e : Encoder) (c : List (RegionKind × Nat)) : Encoder :=
  { e with regionShorthands := c }

/-- A fresh encoding session: empty buffer, empty caches. -/
def encInit : Encoder := ⟨[], [], [], []⟩

/-- Translation of `encode_with_shorthand` (codec.rs lines 72-108).

The cache selector `M` of the source becomes the getter/setter pair
`getCache`/`setCache`; `intrinsics::discriminant_value(variant)` becomes the
precomputed `discriminant`.  Because the cache lookup does not modify the
encoder, the source's `variant.encode(encoder)` on the miss path starts from
exactly the encoder passed in, so the call sites pass the result of encoding
the variant into `e` as `payload` (it is only consulted on the miss path,
exactly as in the source).  The `assert!(SHORTHAND_OFFSET > discriminant)`
abort is modelled by returning `none`; `(shorthand as u64)` is the truncation
`% 2 ^ 64`, and the short-circuiting `||` means `1 << leb128_bits` is only
formed when `leb128_bits < 64`, so plain `2 ^ leb128_bits` is faithful. -/
def encode_with_shorthand {T : Type} [DecidableEq T]
    (getCache : Encoder → List (T × Nat))
    (setCache : Encoder → List (T × Nat) → Encoder)
    (discriminant : Nat)
    (payload : Option Encoder)
    (value : T) (e : Encoder) : Option Encoder :=
  match cacheLookup (getCache e) value with
  | some shorthand => some (e.emit_usize shorthand)
  | none =>
    match payload with
    | none => none
    | some e1 =>
      let start := e.position
      let len := e1.position - start
      if SHORTHAND_OFFSET > discriminant then
        let shorthand := start + SHORTHAND_OFFSET
        let leb128_bits := len * 7
        if leb128_bits ≥ 64 ∨ shorthand % 2 ^ 64 < 2 ^ leb128_bits then
          some (setCache e1 (cacheInsert (getCache e1) value shorthand))
        else
          some e1
      else
        none

/-- Encoding of a `RegionKind` payload (the derived `Encodable` for the
region kind: discriminant, then fields; modelled from the spec §4.4, the
derive itself is outside the given sources). -/
def encodeRegionKind (r : RegionKind) (e : Encoder) : Encoder :=
  match r with
  | .reStatic => e.emit_usize 0
  | .reVar n => (e.emit_usize 1).emit_usize n

/-- `impl Encodable for Region` (codec.rs lines 131-135): encode the
region's kind — a plain recursive encode, with no shorthand cache. -/
def encodeRegion (r : RegionKind) (e : Encoder) : Encoder :=
  encodeRegionKind r e

/-- Encoding of a `TyKind` payload (the derived `Encodable` for
`ty::TyKind`: discriminant, then the fields in order; modelled from the spec
§4.4 and §6, the derive itself is outside the given sources).  Nested `Ty`
fields go through `impl Encodable for Ty`, i.e. through
`encode_with_shorthand` keyed to `type_shorthands`. -/
def encodeTyKind : TyKind → Encoder → Option Encoder
  | .bool, e => some (e.emit_usize 0)
  | .uint n, e => some ((e.emit_usize 1).emit_usize n)
  | .ref t, e =>
    let e1 := e.emit_usize 2
    encode_with_shorthand Encoder.typeShorthands Encoder.setTypeShorthands
      (tyDiscr t) (encodeTyKind t e1) t e1
  | .tup2 a b, e =>
    let e1 := e.emit_usize 3
    match encode_with_shorthand Encoder.typeShorthands Encoder.setTypeShorthands
        (tyDiscr a) (encodeTyKind a e1) a e1 with
    | none => none
    | some e2 =>
      encode_with_shorthand Encoder.typeShorthands Encoder.setTypeShorthands
        (tyDiscr b) (encodeTyKind b e2) b e2

/-- `impl Encodable for Ty` (codec.rs lines 110-114):
`encode_with_shorthand(e, self, TyEncoder::type_shorthands)`, where the
variant of a `Ty` is its `TyKind` (codec.rs lines 39-46). -/
def encodeTy (t : TyKind) (e : Encoder) : Option Encoder :=
  encode_with_shorthand Encoder.typeShorthands Encoder.setTypeShorthands
    (tyDiscr t) (encodeTyKind t e) t e

/-- Encoding of one `BoundVariableKind` (derived: just the discriminant). -/
def encodeBVK (k : BoundVariableKind) (e : Encoder) : Encoder :=
  e.emit_usize (bvDiscr k)

/-- Encoding of the bound-variable list: length prefix followed by each
element in order (spec §4.4 list rule; the `List` encode is outside the given
sources). -/
def encodeBoundVars (l : List BoundVariableKind) (e : Encoder) : Encoder :=
  l.foldl (fun acc k => encodeBVK k acc) (e.emit_usize l.length)

/-- Encoding of a `PredicateKind` payload (derived: discriminant, then the
fields in order; nested `Ty` fields via their shorthand encode, region fields
via their plain encode). -/
def encodePredicateKind : PredicateKind → Encoder → Option Encoder
  | .ambiguous, e => some (e.emit_usize 0)
  | .wellFormed t, e => encodeTy t (e.emit_usize 1)
  | .regionOutlives a b, e => some (encodeRegion b (encodeRegion a (e.emit_usize 2)))

/-- `impl Encodable for Binder<PredicateKind>` (codec.rs lines 116-123):
encode the bound variables, then
`encode_with_shorthand(e, &self.skip_binder(), TyEncoder::predicate_shorthands)`.
The variant of a `PredicateKind` is itself (codec.rs lines 48-55). -/
def encodeBinderPredicate (b : BinderPredicate) (e : Encoder) : Option Encoder :=
  let e1 := encodeBoundVars b.boundVars e
  encode_with_shorthand Encoder.predicateShorthands Encoder.setPredicateShorthands
    (predDiscr b.body) (encodePredicateKind b.body e1) b.body e1

/-- Encoding of the `ConstS` payload (derived: the fields in order — the
type, then the value payload). -/
def encodeConstS (c : ConstS) (e : Encoder) : Option Encoder :=
  (encodeTy c.ty e).map fun e1 => e1.emit_usize c.val

/-- `impl Encodable for Const` (codec.rs lines 137-141): encode the interned
`ConstS` payload (`self.0.0.encode(e)`) — a plain recursive encode, with no
shorthand cache for the constant itself. -/
def encodeConst (c : ConstS) (e : Encoder) : Option Encoder :=
  encodeConstS c e

/-! ### The decoder

The decoding session state is the (immutable) byte buffer, the cursor
position, and the per-decoder position-to-type cache consulted by
`cached_ty_for_shorthand`.  The `TyDecoder` trait and the opaque byte-cursor
decoder are outside the given sources; the primitives below are modelled from
the spec (§4.1, §4.2).  The code in codec.rs uses a position-to-entity cache
only for types (`cached_ty_for_shorthand`, line 198); the binder decode
(lines 215-223) follows its shorthand with a bare `with_position` and no
cache, which is why the decoder state carries a single type cache. -/

/-- The decoding session state. -/
structure Decoder where
  data : List Nat
  pos : Nat
  tyShorthandCache : List (Nat × TyKind)
deriving DecidableEq, Repr

/-- A fresh decoding session over a byte buffer. -/
def decInit (data : List Nat) : Decoder := ⟨data, 0, []⟩

/-- Read one variable-length integer at the cursor, advancing it
(`decoder.read_usize()`; modelled from the spec §4.1). -/
def Decoder.read_usize (d : Decoder) : Option (Nat × Decoder) :=
  (leb128Read (d.data.drop d.pos)).map fun vk => (vk.1, { d with pos := d.pos + vk.2 })

/-- Peek whether the next encoded unit is a shorthand marker: its leading
byte is `≥ 0x80` (modelled from the spec §4.2: "its leading byte pattern
indicates a value `>= THRESHOLD`").  At the end of the buffer there is no
next unit, so the answer is `false`. -/
def Decoder.positioned_at_shorthand (d : Decoder) : Bool :=
  match (d.data.drop d.pos).head? with
  | some b => SHORTHAND_OFFSET ≤ b
  | none => false

/-- Run a decode at a temporary cursor position and restore the original
cursor afterwards (`decoder.with_position(offset, closure)`; modelled from
the spec §4.1: "temporarily repositions the cursor to `offset`, executes a
decode operation, and restores the original cursor position afterward"). -/
def Decoder.with_position {A : Type} (d : Decoder) (p : Nat)
    (f : Decoder → Option (A × Decoder)) : Option (A × Decoder) :=
  (f { d with pos := p }).map fun ad => (ad.1, { ad.2 with pos := d.pos })

/-- The per-decoder position-to-type cache (`cached_ty_for_shorthand`;
modelled from the spec §4.2: "either return a cached already-decoded entity
for that position (per-decoder position→entity cache) or ... decode the full
payload there ... and cache the result keyed by position"). -/
def Decoder.cached_ty_for_shorthand (d : Decoder) (shorthand : Nat)
    (or_insert_with : Decoder → Option (TyKind × Decoder)) : Option (TyKind × Decoder) :=
  match cacheLookup d.tyShorthandCache shorthand with
  | some ty => some (ty, d)
  | none =>
    (or_insert_with d).map fun td =>
      (td.1, { td.2 with tyShorthandCache := cacheInsert td.2.tyShorthandCache shorthand td.1 })

/-- The interner hook `tcx.mk_ty` (spec §4.3): interning canonicalizes
structurally-equal values, and handles are modelled as the structural values
themselves, so interning is the identity. -/
def mk_ty (k : TyKind) : TyKind := k

/-- The interner hook `tcx.mk_region` (spec §4.3): the identity, as for
`mk_ty`. -/
def mk_region (k : RegionKind) : RegionKind := k

/-- `ty::Binder::bind_with_vars`: pair the decoded body with its
bound-variable list. -/
def bind_with_vars (body : PredicateKind) (boundVars : List BoundVariableKind) :
    BinderPredicate :=
  ⟨boundVars, body⟩

/-- The interner hook `tcx.mk_const` (spec §4.3): the identity, as for
`mk_ty`. -/
def mk_const (c : ConstS) : ConstS := c

/-- Decoding of a `RegionKind` payload (derived decode: discriminant, then
fields; modelled from the spec §4.4). -/
def decodeRegionKind (d : Decoder) : Option (RegionKind × Decoder) :=
  match d.read_usize with
  | none => none
  | some (disc, d1) =>
    if disc = 0 then some (.reStatic, d1)
    else if disc = 1 then (d1.read_usize).map fun nd => (.reVar nd.1, nd.2)
    else none

/-- `impl Decodable for Region` (codec.rs lines 257-261):
`decoder.interner().mk_region(Decodable::decode(decoder))`. -/
def decodeRegion (d : Decoder) : Option (RegionKind × Decoder) :=
  (decodeRegionKind d).map fun rd => (mk_region rd.1, rd.2)

mutual

/-- `impl Decodable for Ty` (codec.rs lines 189-206): handle shorthands
first; on a shorthand read the offset, check `pos >= SHORTHAND_OFFSET`
(the `assert!` abort is modelled by `none`), subtract the offset, and go
through `cached_ty_for_shorthand`/`with_position`; otherwise decode the
`TyKind` payload in place and intern it with `mk_ty`.  The `fuel` argument
is a termination measure only: decoding recurses through stream positions,
not through a structurally smaller argument. -/
def decodeTy : Nat → Decoder → Option (TyKind × Decoder)
  | 0, _ => none
  | fuel + 1, d =>
    if d.positioned_at_shorthand then
      match d.read_usize with
      | none => none
      | some (pos, d1) =>
        if SHORTHAND_OFFSET ≤ pos then
          let shorthand := pos - SHORTHAND_OFFSET
          d1.cached_ty_for_shorthand shorthand fun d2 =>
            d2.with_position shorthand (decodeTy fuel)
        else none
    else
      (decodeTyKind fuel d).map fun kd => (mk_ty kd.1, kd.2)

/-- Decoding of a `TyKind` payload (the derived `Decodable` for
`ty::TyKind`: discriminant, then the fields in order; modelled from the spec
§4.4).  Nested `Ty` fields go through `impl Decodable for Ty`. -/
def decodeTyKind : Nat → Decoder → Option (TyKind × Decoder)
  | 0, _ => none
  | fuel + 1, d =>
    match d.read_usize with
    | none => none
    | some (disc, d1) =>
      if disc = 0 then some (.bool, d1)
      else if disc = 1 then (d1.read_usize).map fun nd => (.uint nd.1, nd.2)
      else if disc = 2 then (decodeTy fuel d1).map fun td => (.ref td.1, td.2)
      else if disc = 3 then
        match decodeTy fuel d1 with
        | none => none
        | some (a, d2) => (decodeTy fuel d2).map fun bd => (.tup2 a bd.1, bd.2)
      else none

end

/-- Decoding of one `BoundVariableKind` (derived: just the discriminant). -/
def decodeBVK (d : Decoder) : Option (BoundVariableKind × Decoder) :=
  match d.read_usize with
  | none => none
  | some (disc, d1) =>
    if disc = 0 then some (.bvRegion, d1)
    else if disc = 1 then some (.bvTy, d1)
    else none

/-- Decode `n` `BoundVariableKind`s in order. -/
def decodeBVKList : Nat → Decoder → Option (List BoundVariableKind × Decoder)
  | 0, d => some ([], d)
  | n + 1, d =>
    match decodeBVK d with
    | none => none
    | some (k, d1) => (decodeBVKList n d1).map fun ld => (k :: ld.1, ld.2)

/-- Decoding of the bound-variable list (codec.rs lines 368-377: read the
length, decode that many elements, intern the sequence —
`mk_bound_variable_kinds` being the identity under structural interning). -/
def decodeBoundVars (d : Decoder) : Option (List BoundVariableKind × Decoder) :=
  match d.read_usize with
  | none => none
  | some (len, d1) => decodeBVKList len d1

/-- Decoding of a `PredicateKind` payload (derived: discriminant, then the
fields in order; nested `Ty` via `Ty::decode`, regions via their plain
decode). -/
def decodePredicateKind (fuel : Nat) (d : Decoder) : Option (PredicateKind × Decoder) :=
  match d.read_usize with
  | none => none
  | some (disc, d1) =>
    if disc = 0 then some (.ambiguous, d1)
    else if disc = 1 then (decodeTy fuel d1).map fun td => (.wellFormed td.1, td.2)
    else if disc = 2 then
      match decodeRegion d1 with
      | none => none
      | some (a, d2) => (decodeRegion d2).map fun bd => (.regionOutlives a bd.1, bd.2)
    else none

/-- `impl Decodable for Binder<PredicateKind>` (codec.rs lines 208-227):
decode the bound variables first, then handle a possible shorthand for the
body: read the offset, check `pos >= SHORTHAND_OFFSET`, subtract it, and
decode the `PredicateKind` payload at that position through `with_position`
(with no position cache); otherwise decode the body in place.  Finally
rebuild the binder with `bind_with_vars`. -/
def decodeBinderPredicate (fuel : Nat) (d : Decoder) : Option (BinderPredicate × Decoder) :=
  match decodeBoundVars d with
  | none => none
  | some (bound_vars, d1) =>
    if d1.positioned_at_shorthand then
      match d1.read_usize with
      | none => none
      | some (pos, d2) =>
        if SHORTHAND_OFFSET ≤ pos then
          let shorthand := pos - SHORTHAND_OFFSET
          (d2.with_position shorthand (decodePredicateKind fuel)).map fun pd =>
            (bind_with_vars pd.1 bound_vars, pd.2)
        else none
    else
      (decodePredicateKind fuel d1).map fun pd => (bind_with_vars pd.1 bound_vars, pd.2)

/-- Decoding of the `ConstS` payload (derived: the fields in order). -/
def decodeConstS (fuel : Nat) (d : Decoder) : Option (ConstS × Decoder) :=
  match decodeTy fuel d with
  | none => none
  | some (t, d1) => (d1.read_usize).map fun vd => (⟨t, vd.1⟩, vd.2)

/-- `impl Decodable for Const` (codec.rs lines 312-316):
`decoder.interner().mk_const(Decodable::decode(decoder))`. -/
def decodeConst (fuel : Nat) (d : Decoder) : Option (ConstS × Decoder) :=
  (decodeConstS fuel d).map fun cd => (mk_const cd.1, cd.2)

/-! ### Stream-meaning decoders

For the proofs it is convenient to have, besides the stateful decoder above,
a cache-free reading of the byte stream: a function of the buffer and a
position only, returning the decoded value and the position one past the
record.  These functions mirror the decode impls above with the
position-to-type cache removed (a pure memoization); the bridge theorems
below show the stateful decoder agrees with them. -/

mutual

/-- Cache-free reading of a `Ty` record at a position: either a shorthand
(leading byte `≥ 0x80`) resolved at the back-referenced position, or a plain
`TyKind` payload. -/
def sdecodeTy : Nat → List Nat → Nat → Option (TyKind × Nat)
  | 0, _, _ => none
  | fuel + 1, data, p =>
    match (data.drop p).head? with
    | none => none
    | some b =>
      if SHORTHAND_OFFSET ≤ b then
        match leb128Read (data.drop p) with
        | none => none
        | some (pos, k) =>
          if SHORTHAND_OFFSET ≤ pos then
            match sdecodeTy fuel data (pos - SHORTHAND_OFFSET) with
            | none => none
            | some (t, _) => some (t, p + k)
          else none
      else
        (sdecodeTyKind fuel data p).map fun tq => (mk_ty tq.1, tq.2)

/-- Cache-free reading of a `TyKind` payload at a position. -/
def sdecodeTyKind : Nat → List Nat → Nat → Option (TyKind × Nat)
  | 0, _, _ => none
  | fuel + 1, data, p =>
    match leb128Read (data.drop p) with
    | none => none
    | some (disc, k) =>
      if disc = 0 then some (.bool, p + k)
      else if disc = 1 then (leb128Read (data.drop (p + k))).map fun nk => (.uint nk.1, p + k + nk.2)
      else if disc = 2 then (sdecodeTy fuel data (p + k)).map fun tq => (.ref tq.1, tq.2)
      else if disc = 3 then
        match sdecodeTy fuel data (p + k) with
        | none => none
        | some (a, q) => (sdecodeTy fuel data q).map fun bq => (.tup2 a bq.1, bq.2)
      else none

end

/-- Cache-free reading of a `RegionKind` payload. -/
def sdecodeRegionKind (data : List Nat) (p : Nat) : Option (RegionKind × Nat) :=
  match leb128Read (data.drop p) with
  | none => none
  | some (disc, k) =>
    if disc = 0 then some (.reStatic, p + k)
    else if disc = 1 then (leb128Read (data.drop (p + k))).map fun nk => (.reVar nk.1, p + k + nk.2)
    else none

/-- Cache-free reading of one `BoundVariableKind`. -/
def sdecodeBVK (data : List Nat) (p : Nat) : Option (BoundVariableKind × Nat) :=
  match leb128Read (data.drop p) with
  | none => none
  | some (disc, k) =>
    if disc = 0 then some (.bvRegion, p + k)
    else if disc = 1 then some (.bvTy, p + k)
    else none

/-- Cache-free reading of `n` `BoundVariableKind`s. -/
def sdecodeBVKList : Nat → List Nat → Nat → Option (List BoundVariableKind × Nat)
  | 0, _, p => some ([], p)
  | n + 1, data, p =>
    match sdecodeBVK data p with
    | none => none
    | some (k, q) => (sdecodeBVKList n data q).map fun lq => (k :: lq.1, lq.2)

/-- Cache-free reading of a bound-variable list (length prefix, then the
elements). -/
def sdecodeBoundVars (data : List Nat) (p : Nat) :
    Option (List BoundVariableKind × Nat) :=
  match leb128Read (data.drop p) with
  | none => none
  | some (len, k) => sdecodeBVKList len data (p + k)

/-- Cache-free reading of a `PredicateKind` payload. -/
def sdecodePredicateKind (fuel : Nat) (data : List Nat) (p : Nat) :
    Option (PredicateKind × Nat) :=
  match leb128Read (data.drop p) with
  | none => none
  | some (disc, k) =>
    if disc = 0 then some (.ambiguous, p + k)
    else if disc = 1 then (sdecodeTy fuel data (p + k)).map fun tq => (.wellFormed tq.1, tq.2)
    else if disc = 2 then
      match sdecodeRegionKind data (p + k) with
      | none => none
      | some (a, q) => (sdecodeRegionKind data q).map fun bq => (.regionOutlives a bq.1, bq.2)
    else none

/-- Cache-free reading of a `Binder<PredicateKind>` record: the
bound-variable list, then the body either as a shorthand (resolved at the
back-referenced position) or as a plain payload. -/
def sdecodeBinderPredicate (fuel : Nat) (data : List Nat) (p : Nat) :
    Option (BinderPredicate × Nat) :=
  match sdecodeBoundVars data p with
  | none => none
  | some (bv, q) =>
    match (data.drop q).head? with
    | none => none
    | some b =>
      if SHORTHAND_OFFSET ≤ b then
        match leb128Read (data.drop q) with
        | none => none
        | some (pos, k) =>
          if SHORTHAND_OFFSET ≤ pos then
            match sdecodePredicateKind fuel data (pos - SHORTHAND_OFFSET) with
            | none => none
            | some (pk, _) => some (bind_with_vars pk bv, q + k)
          else none
      else
        (sdecodePredicateKind fuel data q).map fun pq => (bind_with_vars pq.1 bv, pq.2)

/-- Cache-free reading of a `ConstS` payload. -/
def sdecodeConstS (fuel : Nat) (data : List Nat) (p : Nat) : Option (ConstS × Nat) :=
  match sdecodeTy fuel data p with
  | none => none
  | some (t, q) => (leb128Read (data.drop q)).map fun vk => (⟨t, vk.1⟩, q + vk.2)

/-! ### Basic facts about the variable-length codec -/

/-- A small value is written as one byte. -/
theorem leb128Write_eq_of_lt {n : Nat} (h : n < 128) : leb128Write n = [n] := by
  unfold leb128Write
  cases hn : n with
  | zero => rfl
  | succ m => simp [leb128WriteFuel, h, hn.symm ▸ h]

/-- A large value is written as its low seven bits (with the continuation
bit set) followed by the encoding of the rest. -/
theorem leb128Write_eq_of_ge {n : Nat} (h : 128 ≤ n) :
    leb128Write n = (n % 128 + 128) :: leb128Write (n / 128) := by
  unfold leb128Write
  obtain ⟨m, rfl⟩ : ∃ m, n = m + 1 := ⟨n - 1, by omega⟩
  simp only [leb128WriteFuel, if_neg (by omega : ¬ m + 1 < 128)]
  have hd : (m + 1) / 128 < m + 1 := Nat.div_lt_self (by omega) (by omega)
  rw [leb128WriteFuel_congr (by omega) (le_refl _)]

/-- A variable-length encoding is never empty. -/
theorem leb128Write_length_pos (n : Nat) : 0 < (leb128Write n).length := by
  by_cases h : n < 128
  · simp [leb128Write_eq_of_lt h]
  · simp [leb128Write_eq_of_ge (Nat.le_of_not_lt h)]

/-- The first byte of the encoding of a small value is the value itself. -/
theorem leb128Write_head_of_lt {n : Nat} (h : n < 128) :
    (leb128Write n).head? = some n := by
  simp [leb128Write_eq_of_lt h]

/-- The first byte of the encoding of a value `≥ 0x80` is `≥ 0x80`. -/
theorem leb128Write_head_of_ge {n : Nat} (h : 128 ≤ n) :
    ∃ b, (leb128Write n).head? = some b ∧ 128 ≤ b := by
  refine ⟨n % 128 + 128, ?_, by omega⟩
  simp [leb128Write_eq_of_ge h]

/-- Reading is unaffected by bytes past the integer just read. -/
theorem leb128Read_append {l : List Nat} {vk : Nat × Nat}
    (h : leb128Read l = some vk) (l2 : List Nat) :
    leb128Read (l ++ l2) = some vk := by
  induction l generalizing vk with
  | nil => simp [leb128Read] at h
  | cons b rest ih =>
    by_cases hb : b < 128
    · simp only [leb128Read, hb, if_true] at h ⊢
      simpa using h
    · simp only [leb128Read, hb, if_false, List.cons_append, List.append_eq] at h ⊢
      match hr : leb128Read rest with
      | none => rw [hr] at h; simp at h
      | some vk2 =>
        rw [hr] at h
        rw [ih hr]
        simpa using h

/-- Round trip of the variable-length integer codec: reading back an encoded
integer yields the integer and consumes exactly its encoding. -/
theorem leb128Read_write (n : Nat) (rest : List Nat) :
    leb128Read (leb128Write n ++ rest) = some (n, (leb128Write n).length) := by
  induction n using Nat.strong_induction_on with
  | _ n ih =>
    by_cases h : n < 128
    · rw [leb128Write_eq_of_lt h]
      simp [leb128Read, h]
    · have h' : 128 ≤ n := Nat.le_of_not_lt h
      rw [leb128Write_eq_of_ge h']
      have hdiv : n / 128 < n := Nat.div_lt_self (by omega) (by omega)
      simp only [List.cons_append, leb128Read, List.length_cons, List.append_eq]
      rw [if_neg (by omega)]
      rw [ih (n / 128) hdiv]
      have hmd : n % 128 + 128 * (n / 128) = n := Nat.mod_add_div n 128
      simp only [Option.map_some', Option.some.injEq, Prod.mk.injEq]
      refine ⟨by omega, trivial⟩

/-- Without a tail: the pure round trip. -/
theorem leb128Read_write_nil (n : Nat) :
    leb128Read (leb128Write n) = some (n, (leb128Write n).length) := by
  have := leb128Read_write n []
  simpa using this

/-- A value below `2 ^ (7 * k)` fits in `k` variable-length bytes
(for `k ≥ 1`). -/
theorem leb128Write_length_le {n k : Nat} (hk : 0 < k) (h : n < 2 ^ (7 * k)) :
    (leb128Write n).length ≤ k := by
  induction n using Nat.strong_induction_on generalizing k with
  | _ n ih =>
    by_cases hn : n < 128
    · simp [leb128Write_eq_of_lt hn]; omega
    · have h' : 128 ≤ n := Nat.le_of_not_lt hn
      rw [leb128Write_eq_of_ge h']
      have hk2 : 2 ≤ k := by
        by_contra hc
        have hk1 : k = 1 := by omega
        subst hk1
        simp at h
        omega
      have hdiv : n / 128 < n := Nat.div_lt_self (by omega) (by omega)
      have hrec : n / 128 < 2 ^ (7 * (k - 1)) := by
        apply Nat.div_lt_of_lt_mul
        have : (128 : Nat) * 2 ^ (7 * (k - 1)) = 2 ^ (7 * k) := by
          have h7 : 7 * k = 7 + 7 * (k - 1) := by omega
          rw [h7, pow_add]
          norm_num
        omega
      have := ih (n / 128) hdiv (k := k - 1) (by omega) hrec
      simp only [List.length_cons]
      omega

/-! ### Basic facts about the byte buffer -/

/-- Dropping past an appended block, element count split. -/
theorem drop_len_add_append {α : Type} (a b : List α) (k : Nat) :
    (a ++ b).drop (a.length + k) = b.drop k := by
  rw [← List.drop_drop, List.drop_left]

/-- Dropping within the first block of an append. -/
theorem drop_append_le {α : Type} {p : Nat} (a b : List α) (h : p ≤ a.length) :
    (a ++ b).drop p = a.drop p ++ b :=
  List.drop_append_of_le_length h

/-! ### Fuel monotonicity of the stream-meaning decoders -/

/-- Fuel monotonicity for `sdecodeTy` and `sdecodeTyKind`, proved jointly:
more fuel never changes a successful result. -/
theorem sdecodeTy_tyKind_mono :
    ∀ fuel : Nat,
      (∀ {fuel2 : Nat} {data : List Nat} {p : Nat} {r : TyKind × Nat}, fuel ≤ fuel2 →
        sdecodeTy fuel data p = some r → sdecodeTy fuel2 data p = some r)
      ∧ (∀ {fuel2 : Nat} {data : List Nat} {p : Nat} {r : TyKind × Nat}, fuel ≤ fuel2 →
        sdecodeTyKind fuel data p = some r → sdecodeTyKind fuel2 data p = some r) := by
  intro fuel
  induction fuel with
  | zero =>
    constructor
    · intro fuel2 data p r _ h
      simp [sdecodeTy] at h
    · intro fuel2 data p r _ h
      simp [sdecodeTyKind] at h
  | succ fuel ih =>
    constructor
    · intro fuel2 data p r hle h
      obtain ⟨f2, rfl⟩ : ∃ f2, fuel2 = f2 + 1 := ⟨fuel2 - 1, by omega⟩
      have hle2 : fuel ≤ f2 := by omega
      simp only [sdecodeTy] at h ⊢
      cases hh : (data.drop p).head? with
      | none => simp only [hh] at h; cases h
      | some b =>
        simp only [hh] at h ⊢
        by_cases hb : SHORTHAND_OFFSET ≤ b
        · simp only [if_pos hb] at h ⊢
          cases hr : leb128Read (data.drop p) with
          | none => simp only [hr] at h; cases h
          | some vk =>
            obtain ⟨pos, k⟩ := vk
            simp only [hr] at h ⊢
            by_cases hv : SHORTHAND_OFFSET ≤ pos
            · simp only [if_pos hv] at h ⊢
              cases hs : sdecodeTy fuel data (pos - SHORTHAND_OFFSET) with
              | none => simp only [hs] at h; cases h
              | some tq =>
                obtain ⟨t, q⟩ := tq
                simp only [hs] at h
                simp only [ih.1 hle2 hs]
                exact h
            · simp only [if_neg hv] at h; cases h
        · simp only [if_neg hb] at h ⊢
          cases hk : sdecodeTyKind fuel data p with
          | none => simp only [hk] at h; cases h
          | some tq =>
            simp only [hk] at h
            simp only [ih.2 hle2 hk]
            exact h
    · intro fuel2 data p r hle h
      obtain ⟨f2, rfl⟩ : ∃ f2, fuel2 = f2 + 1 := ⟨fuel2 - 1, by omega⟩
      have hle2 : fuel ≤ f2 := by omega
      simp only [sdecodeTyKind] at h ⊢
      cases hr : leb128Read (data.drop p) with
      | none => simp only [hr] at h; cases h
      | some dk =>
        obtain ⟨disc, k⟩ := dk
        simp only [hr] at h ⊢
        by_cases h0 : disc = 0
        · simp only [if_pos h0] at h ⊢; exact h
        · simp only [if_neg h0] at h ⊢
          by_cases h1 : disc = 1
          · simp only [if_pos h1] at h ⊢; exact h
          · simp only [if_neg h1] at h ⊢
            by_cases h2 : disc = 2
            · simp only [if_pos h2] at h ⊢
              cases hs : sdecodeTy fuel data (p + k) with
              | none => simp only [hs] at h; cases h
              | some tq =>
                simp only [hs] at h
                simp only [ih.1 hle2 hs]
                exact h
            · simp only [if_neg h2] at h ⊢
              by_cases h3 : disc = 3
              · simp only [if_pos h3] at h ⊢
                cases hs : sdecodeTy fuel data (p + k) with
                | none => simp only [hs] at h; cases h
                | some aq =>
                  obtain ⟨a, q⟩ := aq
                  simp only [hs] at h
                  simp only [ih.1 hle2 hs]
                  cases hs2 : sdecodeTy fuel data q with
                  | none => simp only [hs2] at h; cases h
                  | some bq =>
                    simp only [hs2] at h
                    simp only [ih.1 hle2 hs2]
                    exact h
              · simp only [if_neg h3] at h; cases h

/-- Fuel monotonicity for `sdecodeTy`. -/
theorem sdecodeTy_mono {fuel fuel2 : Nat} {data : List Nat} {p : Nat}
    {r : TyKind × Nat} (hle : fuel ≤ fuel2) (h : sdecodeTy fuel data p = some r) :
    sdecodeTy fuel2 data p = some r :=
  (sdecodeTy_tyKind_mono fuel).1 hle h

/-- Fuel monotonicity for `sdecodeTyKind`. -/
theorem sdecodeTyKind_mono {fuel fuel2 : Nat} {data : List Nat} {p : Nat}
    {r : TyKind × Nat} (hle : fuel ≤ fuel2) (h : sdecodeTyKind fuel data p = some r) :
    sdecodeTyKind fuel2 data p = some r :=
  (sdecodeTy_tyKind_mono fuel).2 hle h

/-- Two successful readings of a `Ty` record at the same position agree on
the value and end position, whatever their fuels. -/
theorem sdecodeTy_unique {fuel fuel2 : Nat} {data : List Nat} {p : Nat}
    {r r2 : TyKind × Nat} (h : sdecodeTy fuel data p = some r)
    (h2 : sdecodeTy fuel2 data p = some r2) : r = r2 := by
  have e1 := sdecodeTy_mono (Nat.le_max_left fuel fuel2) h
  have e2 := sdecodeTy_mono (Nat.le_max_right fuel fuel2) h2
  rw [e1] at e2
  exact Option.some.inj e2

/-- Fuel monotonicity for `sdecodePredicateKind`. -/
theorem sdecodePredicateKind_mono {fuel fuel2 : Nat} {data : List Nat} {p : Nat}
    {r : PredicateKind × Nat} (hle : fuel ≤ fuel2)
    (h : sdecodePredicateKind fuel data p = some r) :
    sdecodePredicateKind fuel2 data p = some r := by
  simp only [sdecodePredicateKind] at h ⊢
  cases hr : leb128Read (data.drop p) with
  | none => simp only [hr] at h; cases h
  | some dk =>
    obtain ⟨disc, k⟩ := dk
    simp only [hr] at h ⊢
    by_cases h0 : disc = 0
    · simp only [if_pos h0] at h ⊢; exact h
    · simp only [if_neg h0] at h ⊢
      by_cases h1 : disc = 1
      · simp only [if_pos h1] at h ⊢
        cases hs : sdecodeTy fuel data (p + k) with
        | none => simp only [hs] at h; cases h
        | some tq =>
          simp only [hs] at h
          simp only [sdecodeTy_mono hle hs]
          exact h
      · simp only [if_neg h1] at h ⊢; exact h

/-- Two successful readings of a `PredicateKind` payload at the same
position agree, whatever their fuels. -/
theorem sdecodePredicateKind_unique {fuel fuel2 : Nat} {data : List Nat} {p : Nat}
    {r r2 : PredicateKind × Nat} (h : sdecodePredicateKind fuel data p = some r)
    (h2 : sdecodePredicateKind fuel2 data p = some r2) : r = r2 := by
  have e1 := sdecodePredicateKind_mono (Nat.le_max_left fuel fuel2) h
  have e2 := sdecodePredicateKind_mono (Nat.le_max_right fuel fuel2) h2
  rw [e1] at e2
  exact Option.some.inj e2

/-! ### Stability of the stream-meaning decoders under appended bytes

The encoder only ever appends to the buffer, so anything decodable now stays
decodable (with the same result) in every later buffer state. -/

/-- The byte under the cursor is unchanged by appending. -/
theorem head_drop_append {data : List Nat} {p b : Nat} (ext : List Nat)
    (h : (data.drop p).head? = some b) :
    ((data ++ ext).drop p).head? = some b := by
  have hp : p < data.length := by
    by_contra hc
    have hnil : data.drop p = [] := List.drop_eq_nil_of_le (by omega)
    rw [hnil] at h
    cases h
  rw [drop_append_le data ext (by omega)]
  cases hd : data.drop p with
  | nil => rw [hd] at h; cases h
  | cons x xs =>
    rw [hd] at h
    simp only [List.head?_cons, Option.some.injEq] at h
    simp [h]

/-- A variable-length integer under the cursor is unchanged by appending. -/
theorem leb128Read_drop_append {data ext : List Nat} {p : Nat} {vk : Nat × Nat}
    (h : leb128Read (data.drop p) = some vk) :
    leb128Read ((data ++ ext).drop p) = some vk := by
  by_cases hp : p ≤ data.length
  · rw [drop_append_le data ext hp]
    exact leb128Read_append h ext
  · have hnil : data.drop p = [] := List.drop_eq_nil_of_le (by omega)
    rw [hnil] at h
    cases h

/-- Append stability for `sdecodeTy` and `sdecodeTyKind`, proved jointly. -/
theorem sdecodeTy_tyKind_append :
    ∀ fuel : Nat,
      (∀ {data ext : List Nat} {p : Nat} {r : TyKind × Nat},
        sdecodeTy fuel data p = some r → sdecodeTy fuel (data ++ ext) p = some r)
      ∧ (∀ {data ext : List Nat} {p : Nat} {r : TyKind × Nat},
        sdecodeTyKind fuel data p = some r → sdecodeTyKind fuel (data ++ ext) p = some r) := by
  intro fuel
  induction fuel with
  | zero =>
    constructor
    · intro data ext p r h
      simp [sdecodeTy] at h
    · intro data ext p r h
      simp [sdecodeTyKind] at h
  | succ fuel ih =>
    constructor
    · intro data ext p r h
      simp only [sdecodeTy] at h ⊢
      cases hh : (data.drop p).head? with
      | none => simp only [hh] at h; cases h
      | some b =>
        simp only [hh, head_drop_append ext hh] at h ⊢
        by_cases hb : SHORTHAND_OFFSET ≤ b
        · simp only [if_pos hb] at h ⊢
          cases hr : leb128Read (data.drop p) with
          | none => simp only [hr] at h; cases h
          | some vk =>
            obtain ⟨pos, k⟩ := vk
            simp only [hr, leb128Read_drop_append hr] at h ⊢
            by_cases hv : SHORTHAND_OFFSET ≤ pos
            · simp only [if_pos hv] at h ⊢
              cases hs : sdecodeTy fuel data (pos - SHORTHAND_OFFSET) with
              | none => simp only [hs] at h; cases h
              | some tq =>
                obtain ⟨t, q⟩ := tq
                simp only [hs] at h
                simp only [ih.1 hs]
                exact h
            · simp only [if_neg hv] at h; cases h
        · simp only [if_neg hb] at h ⊢
          cases hk : sdecodeTyKind fuel data p with
          | none => simp only [hk] at h; cases h
          | some tq =>
            simp only [hk] at h
            simp only [ih.2 hk]
            exact h
    · intro data ext p r h
      simp only [sdecodeTyKind] at h ⊢
      cases hr : leb128Read (data.drop p) with
      | none => simp only [hr] at h; cases h
      | some dk =>
        obtain ⟨disc, k⟩ := dk
        simp only [hr, leb128Read_drop_append hr] at h ⊢
        by_cases h0 : disc = 0
        · simp only [if_pos h0] at h ⊢; exact h
        · simp only [if_neg h0] at h ⊢
          by_cases h1 : disc = 1
          · simp only [if_pos h1] at h ⊢
            cases hn : leb128Read (data.drop (p + k)) with
            | none => simp only [hn] at h; cases h
            | some nk =>
              simp only [hn, leb128Read_drop_append hn] at h ⊢
              exact h
          · simp only [if_neg h1] at h ⊢
            by_cases h2 : disc = 2
            · simp only [if_pos h2] at h ⊢
              cases hs : sdecodeTy fuel data (p + k) with
              | none => simp only [hs] at h; cases h
              | some tq =>
                simp only [hs] at h
                simp only [ih.1 hs]
                exact h
            · simp only [if_neg h2] at h ⊢
              by_cases h3 : disc = 3
              · simp only [if_pos h3] at h ⊢
                cases hs : sdecodeTy fuel data (p + k) with
                | none => simp only [hs] at h; cases h
                | some aq =>
                  obtain ⟨a, q⟩ := aq
                  simp only [hs] at h
                  simp only [ih.1 hs]
                  cases hs2 : sdecodeTy fuel data q with
                  | none => simp only [hs2] at h; cases h
                  | some bq =>
                    simp only [hs2] at h
                    simp only [ih.1 hs2]
                    exact h
              · simp only [if_neg h3] at h; cases h

/-- Append stability for `sdecodeTy`. -/
theorem sdecodeTy_append {fuel : Nat} {data ext : List Nat} {p : Nat}
    {r : TyKind × Nat} (h : sdecodeTy fuel data p = some r) :
    sdecodeTy fuel (data ++ ext) p = some r :=
  (sdecodeTy_tyKind_append fuel).1 h

/-- Append stability for `sdecodeTyKind`. -/
theorem sdecodeTyKind_append {fuel : Nat} {data ext : List Nat} {p : Nat}
    {r : TyKind × Nat} (h : sdecodeTyKind fuel data p = some r) :
    sdecodeTyKind fuel (data ++ ext) p = some r :=
  (sdecodeTy_tyKind_append fuel).2 h

/-- Append stability for `sdecodeRegionKind`. -/
theorem sdecodeRegionKind_append {data ext : List Nat} {p : Nat}
    {r : RegionKind × Nat} (h : sdecodeRegionKind data p = some r) :
    sdecodeRegionKind (data ++ ext) p = some r := by
  simp only [sdecodeRegionKind] at h ⊢
  cases hr : leb128Read (data.drop p) with
  | none => simp only [hr] at h; cases h
  | some dk =>
    obtain ⟨disc, k⟩ := dk
    simp only [hr, leb128Read_drop_append hr] at h ⊢
    by_cases h0 : disc = 0
    · simp only [if_pos h0] at h ⊢; exact h
    · simp only [if_neg h0] at h ⊢
      by_cases h1 : disc = 1
      · simp only [if_pos h1] at h ⊢
        cases hn : leb128Read (data.drop (p + k)) with
        | none => simp only [hn] at h; cases h
        | some nk =>
          simp only [hn, leb128Read_drop_append hn] at h ⊢
          exact h
      · simp only [if_neg h1] at h; cases h

/-- Append stability for `sdecodeBVK`. -/
theorem sdecodeBVK_append {data ext : List Nat} {p : Nat}
    {r : BoundVariableKind × Nat} (h : sdecodeBVK data p = some r) :
    sdecodeBVK (data ++ ext) p = some r := by
  simp only [sdecodeBVK] at h ⊢
  cases hr : leb128Read (data.drop p) with
  | none => simp only [hr] at h; cases h
  | some dk =>
    obtain ⟨disc, k⟩ := dk
    simp only [hr, leb128Read_drop_append hr] at h ⊢
    exact h

/-- Append stability for `sdecodeBVKList`. -/
theorem sdecodeBVKList_append {n : Nat} {data ext : List Nat} {p : Nat}
    {r : List BoundVariableKind × Nat} (h : sdecodeBVKList n data p = some r) :
    sdecodeBVKList n (data ++ ext) p = some r := by
  induction n generalizing p r with
  | zero => simpa [sdecodeBVKList] using h
  | succ n ih =>
    simp only [sdecodeBVKList] at h ⊢
    cases hk : sdecodeBVK data p with
    | none => simp only [hk] at h; cases h
    | some kq =>
      obtain ⟨k, q⟩ := kq
      simp only [hk, sdecodeBVK_append hk] at h ⊢
      cases hl : sdecodeBVKList n data q with
      | none => simp only [hl] at h; cases h
      | some lq =>
        simp only [hl, ih hl] at h ⊢
        exact h

/-- Append stability for `sdecodeBoundVars`. -/
theorem sdecodeBoundVars_append {data ext : List Nat} {p : Nat}
    {r : List BoundVariableKind × Nat} (h : sdecodeBoundVars data p = some r) :
    sdecodeBoundVars (data ++ ext) p = some r := by
  simp only [sdecodeBoundVars] at h ⊢
  cases hr : leb128Read (data.drop p) with
  | none => simp only [hr] at h; cases h
  | some lk =>
    obtain ⟨len, k⟩ := lk
    simp only [hr, leb128Read_drop_append hr] at h ⊢
    exact sdecodeBVKList_append h

/-- Append stability for `sdecodePredicateKind`. -/
theorem sdecodePredicateKind_append {fuel : Nat} {data ext : List Nat} {p : Nat}
    {r : PredicateKind × Nat} (h : sdecodePredicateKind fuel data p = some r) :
    sdecodePredicateKind fuel (data ++ ext) p = some r := by
  simp only [sdecodePredicateKind] at h ⊢
  cases hr : leb128Read (data.drop p) with
  | none => simp only [hr] at h; cases h
  | some dk =>
    obtain ⟨disc, k⟩ := dk
    simp only [hr, leb128Read_drop_append hr] at h ⊢
    by_cases h0 : disc = 0
    · simp only [if_pos h0] at h ⊢; exact h
    · simp only [if_neg h0] at h ⊢
      by_cases h1 : disc = 1
      · simp only [if_pos h1] at h ⊢
        cases hs : sdecodeTy fuel data (p + k) with
        | none => simp only [hs] at h; cases h
        | some tq =>
          simp only [hs] at h
          simp only [sdecodeTy_append hs]
          exact h
      · simp only [if_neg h1] at h ⊢
        by_cases h2 : disc = 2
        · simp only [if_pos h2] at h ⊢
          cases ha : sdecodeRegionKind data (p + k) with
          | none => simp only [ha] at h; cases h
          | some aq =>
            obtain ⟨a, q⟩ := aq
            simp only [ha] at h
            simp only [sdecodeRegionKind_append ha]
            cases hb : sdecodeRegionKind data q with
            | none => simp only [hb] at h; cases h
            | some bq =>
              simp only [hb] at h
              simp only [sdecodeRegionKind_append hb]
              exact h
        · simp only [if_neg h2] at h; cases h

/-! ### Case equations for `encode_with_shorthand` -/

/-- On a cache hit, `encode_with_shorthand` emits just the cached shorthand
as a single variable-length integer and returns (codec.rs lines 80-84);
neither the discriminant assertion nor the payload is consulted. -/
theorem encode_with_shorthand_hit {T : Type} [DecidableEq T]
    (getCache : Encoder → List (T × Nat)) (setCache : Encoder → List (T × Nat) → Encoder)
    (discriminant : Nat) (payload : Option Encoder) {value : T} {e : Encoder} {sh : Nat}
    (hc : cacheLookup (getCache e) value = some sh) :
    encode_with_shorthand getCache setCache discriminant payload value e =
      some (e.emit_usize sh) := by
  simp [encode_with_shorthand, hc]

/-- On a cache miss with a sound discriminant, when the obvious-win test
succeeds the new shorthand is recorded (codec.rs lines 105-106). -/
theorem encode_with_shorthand_miss_insert {T : Type} [DecidableEq T]
    (getCache : Encoder → List (T × Nat)) (setCache : Encoder → List (T × Nat) → Encoder)
    {discriminant : Nat} {value : T} {e e1 : Encoder}
    (hc : cacheLookup (getCache e) value = none)
    (hd : discriminant < SHORTHAND_OFFSET)
    (hcond : (e1.position - e.position) * 7 ≥ 64 ∨
      (e.position + SHORTHAND_OFFSET) % 2 ^ 64 < 2 ^ ((e1.position - e.position) * 7)) :
    encode_with_shorthand getCache setCache discriminant (some e1) value e =
      some (setCache e1 (cacheInsert (getCache e1) value (e.position + SHORTHAND_OFFSET))) := by
  simp only [encode_with_shorthand, hc]
  rw [if_pos hd, if_pos hcond]

/-- On a cache miss with a sound discriminant, when the obvious-win test
fails the payload stands alone and nothing is cached (codec.rs line 105,
false branch). -/
theorem encode_with_shorthand_miss_nocache {T : Type} [DecidableEq T]
    (getCache : Encoder → List (T × Nat)) (setCache : Encoder → List (T × Nat) → Encoder)
    {discriminant : Nat} {value : T} {e e1 : Encoder}
    (hc : cacheLookup (getCache e) value = none)
    (hd : discriminant < SHORTHAND_OFFSET)
    (hcond : ¬ ((e1.position - e.position) * 7 ≥ 64 ∨
      (e.position + SHORTHAND_OFFSET) % 2 ^ 64 < 2 ^ ((e1.position - e.position) * 7))) :
    encode_with_shorthand getCache setCache discriminant (some e1) value e = some e1 := by
  simp only [encode_with_shorthand, hc]
  rw [if_pos hd, if_neg hcond]

/-- On a cache miss with a discriminant at or above the threshold the
assertion fails and encoding aborts (codec.rs line 95). -/
theorem encode_with_shorthand_miss_assert {T : Type} [DecidableEq T]
    (getCache : Encoder → List (T × Nat)) (setCache : Encoder → List (T × Nat) → Encoder)
    {discriminant : Nat} {value : T} {e : Encoder} (e1 : Encoder)
    (hc : cacheLookup (getCache e) value = none)
    (hd : SHORTHAND_OFFSET ≤ discriminant) :
    encode_with_shorthand getCache setCache discriminant (some e1) value e = none := by
  simp only [encode_with_shorthand, hc]
  rw [if_neg (by omega)]

/-! ### Discriminants stay below the threshold -/

/-- Every `TyKind` discriminant is below the shorthand threshold. -/
theorem tyDiscr_lt (t : TyKind) : tyDiscr t < SHORTHAND_OFFSET := by
  cases t <;> simp [tyDiscr, SHORTHAND_OFFSET]

/-- Every `PredicateKind` discriminant is below the shorthand threshold. -/
theorem predDiscr_lt (p : PredicateKind) : predDiscr p < SHORTHAND_OFFSET := by
  cases p <;> simp [predDiscr, SHORTHAND_OFFSET]

/-! ### The encoder cache invariant -/

/-- Membership from a successful cache lookup. -/
theorem cacheLookup_mem {K V : Type} [DecidableEq K] {c : List (K × V)} {k : K} {v : V}
    (h : cacheLookup c k = some v) : (k, v) ∈ c := by
  induction c with
  | nil => simp [cacheLookup] at h
  | cons kv rest ih =>
    simp only [cacheLookup] at h
    by_cases hk : kv.1 = k
    · rw [if_pos hk] at h
      obtain ⟨k1, v1⟩ := kv
      simp only [Option.some.injEq] at h
      simp only at hk
      subst hk
      subst h
      exact List.mem_cons_self _ _
    · rw [if_neg hk] at h
      exact List.mem_cons_of_mem _ (ih h)

/-- The buffer holds a decodable `Ty` record for `t` at position `p` (the
end position is irrelevant: back-reference resolution discards it). -/
def TyAt (data : List Nat) (p : Nat) (t : TyKind) : Prop :=
  ∃ fuel q, sdecodeTy fuel data p = some (t, q)

/-- The buffer holds a decodable `PredicateKind` payload for `pk` at
position `p`. -/
def PredKindAt (data : List Nat) (p : Nat) (pk : PredicateKind) : Prop :=
  ∃ fuel q, sdecodePredicateKind fuel data p = some (pk, q)

/-- `TyAt` survives appending bytes. -/
theorem TyAt_append {data ext : List Nat} {p : Nat} {t : TyKind}
    (h : TyAt data p t) : TyAt (data ++ ext) p t := by
  obtain ⟨fuel, q, hq⟩ := h
  exact ⟨fuel, q, sdecodeTy_append hq⟩

/-- `PredKindAt` survives appending bytes. -/
theorem PredKindAt_append {data ext : List Nat} {p : Nat} {pk : PredicateKind}
    (h : PredKindAt data p pk) : PredKindAt (data ++ ext) p pk := by
  obtain ⟨fuel, q, hq⟩ := h
  exact ⟨fuel, q, sdecodePredicateKind_append hq⟩

/-- The encoder invariant: every cache entry is a well-formed back-reference
into the already emitted stream — its shorthand is at least
`SHORTHAND_OFFSET`, it refers strictly before the current stream end, and
the bytes there decode to exactly the cached value. -/
def EncInv (e : Encoder) : Prop :=
  (∀ ts ∈ e.typeShorthands,
    SHORTHAND_OFFSET ≤ ts.2 ∧ ts.2 - SHORTHAND_OFFSET < e.data.length ∧
      TyAt e.data (ts.2 - SHORTHAND_OFFSET) ts.1)
  ∧ (∀ ps ∈ e.predicateShorthands,
    SHORTHAND_OFFSET ≤ ps.2 ∧ ps.2 - SHORTHAND_OFFSET < e.data.length ∧
      PredKindAt e.data (ps.2 - SHORTHAND_OFFSET) ps.1)

/-- A fresh session satisfies the encoder invariant. -/
theorem EncInv_init : EncInv encInit := by
  constructor <;> intro x hx <;> simp [encInit] at hx

/-- The encoder invariant survives appending bytes while keeping the caches. -/
theorem EncInv_extend {e e2 : Encoder} (h : EncInv e) (w : List Nat)
    (hd : e2.data = e.data ++ w)
    (ht : e2.typeShorthands = e.typeShorthands)
    (hp : e2.predicateShorthands = e.predicateShorthands) : EncInv e2 := by
  constructor
  · intro ts hts
    rw [ht] at hts
    obtain ⟨h1, h2, h3⟩ := h.1 ts hts
    refine ⟨h1, ?_, ?_⟩
    · rw [hd, List.length_append]; omega
    · rw [hd]; exact TyAt_append h3
  · intro ps hps
    rw [hp] at hps
    obtain ⟨h1, h2, h3⟩ := h.2 ps hps
    refine ⟨h1, ?_, ?_⟩
    · rw [hd, List.length_append]; omega
    · rw [hd]; exact PredKindAt_append h3

/-- The encoder invariant survives one plain `emit_usize`. -/
theorem EncInv_emit {e : Encoder} (h : EncInv e) (n : Nat) :
    EncInv (e.emit_usize n) :=
  EncInv_extend h (leb128Write n) rfl rfl rfl

/-! ### Reading back what the encoder wrote: two forms of a `Ty` record -/

/-- A plain `TyKind` payload at `p` reads back as a `Ty` record: its leading
byte is the discriminant, which is below the threshold. -/
theorem sdecodeTy_plain {data : List Nat} {p q fuel : Nat} {t : TyKind}
    (hhead : (data.drop p).head? = some (tyDiscr t))
    (hk : sdecodeTyKind fuel data p = some (t, q)) :
    sdecodeTy (fuel + 1) data p = some (t, q) := by
  have hd := tyDiscr_lt t
  simp only [sdecodeTy, hhead]
  rw [if_neg (by omega)]
  simp [hk, mk_ty]

/-- A shorthand at `p` pointing back at a decodable `Ty` record reads back
as that record's value, ending just past the back-reference. -/
theorem sdecodeTy_backref {data rest : List Nat} {p sh q0 fuel : Nat} {t : TyKind}
    (hdrop : data.drop p = leb128Write sh ++ rest)
    (hsh : SHORTHAND_OFFSET ≤ sh)
    (hat : sdecodeTy fuel data (sh - SHORTHAND_OFFSET) = some (t, q0)) :
    sdecodeTy (fuel + 1) data p = some (t, p + (leb128Write sh).length) := by
  have hread : leb128Read (data.drop p) = some (sh, (leb128Write sh).length) := by
    rw [hdrop]; exact leb128Read_write sh rest
  obtain ⟨b, hb, hb128⟩ := leb128Write_head_of_ge (by
    have : (128 : Nat) ≤ sh := hsh
    exact this)
  have hhead : (data.drop p).head? = some b := by
    rw [hdrop]
    rw [List.head?_append, hb]
    rfl
  have hb2 : SHORTHAND_OFFSET ≤ b := hb128
  simp only [sdecodeTy, hhead]
  rw [if_pos hb2]
  simp only [hread]
  rw [if_pos hsh]
  simp [hat]

/-! ### Correctness of the encoder

Statements: encoding a value appends a non-empty record, preserves the cache
invariant, and the appended record reads back (via the stream meaning) to
exactly the encoded value, ending at the new stream end. -/

/-- Correctness statement for the payload encoding of one `TyKind`. -/
def PTyKind (t : TyKind) : Prop :=
  ∀ {e e2 : Encoder}, EncInv e → encodeTyKind t e = some e2 →
    (∃ w, e2.data = e.data ++ w ∧ w ≠ []) ∧
    EncInv e2 ∧
    (e2.data.drop e.data.length).head? = some (tyDiscr t) ∧
    ∃ fuel, sdecodeTyKind fuel e2.data e.data.length = some (t, e2.data.length)

/-- Correctness statement for the shorthand encoding of one `Ty`. -/
def PTy (t : TyKind) : Prop :=
  ∀ {e e2 : Encoder}, EncInv e → encodeTy t e = some e2 →
    (∃ w, e2.data = e.data ++ w ∧ w ≠ []) ∧
    EncInv e2 ∧
    ∃ fuel, sdecodeTy fuel e2.data e.data.length = some (t, e2.data.length)

/-- Unfolding: the `ref` payload is the discriminant followed by the nested
shorthand-encoded type. -/
theorem encodeTyKind_ref (s : TyKind) (e : Encoder) :
    encodeTyKind (.ref s) e = encodeTy s (e.emit_usize 2) := rfl

/-- Unfolding: the `tup2` payload is the discriminant followed by the two
nested shorthand-encoded types. -/
theorem encodeTyKind_tup2 (a b : TyKind) (e : Encoder) :
    encodeTyKind (.tup2 a b) e =
      match encodeTy a (e.emit_usize 3) with
      | none => none
      | some e1 => encodeTy b e1 := rfl

/-- From payload correctness for `t` to shorthand-encode correctness for
`t`: either the cache hits and the emitted back-reference resolves through
the invariant, or the payload is written (and possibly cached). -/
theorem encTy_step (t : TyKind) (hk : PTyKind t) : PTy t := by
  intro e e2 hinv henc
  unfold encodeTy at henc
  cases hc : cacheLookup e.typeShorthands t with
  | some sh =>
    rw [encode_with_shorthand_hit _ _ _ _ hc] at henc
    obtain rfl : e.emit_usize sh = e2 := Option.some.inj henc
    obtain ⟨hsh1, hsh2, hat⟩ := hinv.1 (t, sh) (cacheLookup_mem hc)
    refine ⟨⟨leb128Write sh, rfl, ?_⟩, EncInv_emit hinv sh, ?_⟩
    · have := leb128Write_length_pos sh
      intro hnil
      rw [hnil] at this
      simp at this
    · have hat2 : TyAt (e.emit_usize sh).data (sh - SHORTHAND_OFFSET) t := TyAt_append hat
    
      obtain ⟨fuel0, q0, hs0⟩ := hat2
      have hdrop : (e.emit_usize sh).data.drop e.data.length = leb128Write sh ++ [] := by
        show (e.data ++ leb128Write sh).drop e.data.length = leb128Write sh ++ []
        rw [List.append_nil, List.drop_left]
      refine ⟨fuel0 + 1, ?_⟩
      have := sdecodeTy_backref hdrop hsh1 hs0
      have hlen : (e.emit_usize sh).data.length = e.data.length + (leb128Write sh).length := by
        show (e.data ++ leb128Write sh).length = _
        simp
      rw [hlen]
      exact this
  | none =>
    rw [show Encoder.typeShorthands = (fun e : Encoder => e.typeShorthands) from rfl] at henc
    simp only [encode_with_shorthand, hc] at henc
    cases hp : encodeTyKind t e with
    | none => simp only [hp] at henc; cases henc
    | some e1 =>
      simp only [hp] at henc
      obtain ⟨⟨w, hw, hwne⟩, hinv1, hhead, fuel, hsdec⟩ := hk hinv hp
      have hlt : e.data.length < e1.data.length := by
        rw [hw, List.length_append]
        cases w with
        | nil => exact absurd rfl hwne
        | cons x xs => simp
      rw [if_pos (by have := tyDiscr_lt t; omega)] at henc
      have hplain : sdecodeTy (fuel + 1) e1.data e.data.length = some (t, e1.data.length) :=
        sdecodeTy_plain hhead hsdec
      by_cases hcond : (e1.position - e.position) * 7 ≥ 64 ∨
          (e.position + SHORTHAND_OFFSET) % 2 ^ 64 < 2 ^ ((e1.position - e.position) * 7)
      · rw [if_pos hcond] at henc
        obtain rfl : Encoder.setTypeShorthands e1
            (cacheInsert e1.typeShorthands t (e.position + SHORTHAND_OFFSET)) = e2 :=
          Option.some.inj henc
        refine ⟨⟨w, hw, hwne⟩, ?_, fuel + 1, hplain⟩
        constructor
        · intro ts hts
          rcases List.mem_cons.mp hts with hts1 | hts2
          · subst hts1
            refine ⟨Nat.le_add_left _ _, ?_, ?_⟩
            · show e.position + SHORTHAND_OFFSET - SHORTHAND_OFFSET < e1.data.length
              have : e.position = e.data.length := rfl
              omega
            · show TyAt e1.data (e.position + SHORTHAND_OFFSET - SHORTHAND_OFFSET) t
              have hpos : e.position + SHORTHAND_OFFSET - SHORTHAND_OFFSET = e.data.length := by
                have : e.position = e.data.length := rfl
                omega
              rw [hpos]
              exact ⟨fuel + 1, e1.data.length, hplain⟩
          · exact hinv1.1 ts hts2
        · exact hinv1.2
      · rw [if_neg hcond] at henc
        obtain rfl : e1 = e2 := Option.some.inj henc
        exact ⟨⟨w, hw, hwne⟩, hinv1, fuel + 1, hplain⟩

/-- Payload-encoding correctness for every `TyKind`, by structural
induction (nested types go through `encTy_step`). -/
theorem encodeTyKind_ok : ∀ t : TyKind, PTyKind t := by
  intro t
  induction t with
  | bool =>
    intro e e2 hinv henc
    simp only [encodeTyKind] at henc
    obtain rfl : e.emit_usize 0 = e2 := Option.some.inj henc
    have h0 : leb128Write 0 = [0] := leb128Write_eq_of_lt (by omega)
    refine ⟨⟨leb128Write 0, rfl, by rw [h0]; simp⟩, EncInv_emit hinv 0, ?_, ?_⟩
    · show ((e.data ++ leb128Write 0).drop e.data.length).head? = _
      rw [List.drop_left, h0]
      rfl
    · refine ⟨1, ?_⟩
      show sdecodeTyKind 1 (e.data ++ leb128Write 0) e.data.length =
        some (.bool, (e.data ++ leb128Write 0).length)
      have hread : leb128Read ((e.data ++ leb128Write 0).drop e.data.length) =
          some (0, (leb128Write 0).length) := by
        rw [List.drop_left]
        exact leb128Read_write_nil 0
      simp only [sdecodeTyKind, hread]
      norm_num
  | uint n =>
    intro e e2 hinv henc
    simp only [encodeTyKind] at henc
    obtain rfl : (e.emit_usize 1).emit_usize n = e2 := Option.some.inj henc
    have h1 : leb128Write 1 = [1] := leb128Write_eq_of_lt (by omega)
    have hdata : ((e.emit_usize 1).emit_usize n).data = e.data ++ ([1] ++ leb128Write n) := by
      show e.data ++ leb128Write 1 ++ leb128Write n = _
      rw [h1, List.append_assoc]
    refine ⟨⟨[1] ++ leb128Write n, hdata, by simp⟩, EncInv_emit (EncInv_emit hinv 1) n, ?_, ?_⟩
    · rw [hdata, List.drop_left]
      rfl
    · refine ⟨1, ?_⟩
      have hread : leb128Read ((((e.emit_usize 1).emit_usize n).data).drop e.data.length) =
          some (1, 1) := by
        rw [hdata, List.drop_left]
        have hr := leb128Read_write 1 (leb128Write n)
        rw [h1] at hr
        simpa using hr
      have hread2 : leb128Read ((((e.emit_usize 1).emit_usize n).data).drop (e.data.length + 1)) =
          some (n, (leb128Write n).length) := by
        rw [hdata, drop_len_add_append]
        show leb128Read (([1] ++ leb128Write n).drop 1) = _
        simp only [List.singleton_append, List.drop_succ_cons, List.drop_zero]
        exact leb128Read_write_nil n
      simp only [sdecodeTyKind, hread]
      norm_num
      rw [hread2]
      refine ⟨n, (leb128Write n).length, rfl, rfl, ?_⟩
      rw [hdata]
      simp only [List.length_append, List.singleton_append, List.length_cons]
      omega
  | ref s ih =>
    intro e e2 hinv henc
    rw [encodeTyKind_ref] at henc
    have h2 : leb128Write 2 = [2] := leb128Write_eq_of_lt (by omega)
    obtain ⟨⟨w, hw, hwne⟩, hinv2, fuel, hs⟩ := encTy_step s ih (EncInv_emit hinv 2) henc
    have hdata : e2.data = e.data ++ ([2] ++ w) := by
      rw [hw]
      show (e.data ++ leb128Write 2) ++ w = _
      rw [h2, List.append_assoc]
    refine ⟨⟨[2] ++ w, hdata, by simp⟩, hinv2, ?_, ?_⟩
    · rw [hdata, List.drop_left]
      rfl
    · refine ⟨fuel + 1, ?_⟩
      have hread : leb128Read (e2.data.drop e.data.length) = some (2, 1) := by
        rw [hdata, List.drop_left]
        have hr := leb128Read_write 2 w
        rw [h2] at hr
        simpa using hr
      have hpos : e.data.length + 1 = (e.emit_usize 2).data.length := by
        show _ = (e.data ++ leb128Write 2).length
        rw [h2]
        simp
      simp only [sdecodeTyKind, hread]
      norm_num
      rw [hpos, hs]
  | tup2 a b iha ihb =>
    intro e e2 hinv henc
    rw [encodeTyKind_tup2] at henc
    have h3 : leb128Write 3 = [3] := leb128Write_eq_of_lt (by omega)
    cases hea : encodeTy a (e.emit_usize 3) with
    | none => simp only [hea] at henc; cases henc
    | some ea =>
      simp only [hea] at henc
      obtain ⟨⟨wa, hwa, hwane⟩, hinva, fa, hsa⟩ := encTy_step a iha (EncInv_emit hinv 3) hea
      obtain ⟨⟨wb, hwb, hwbne⟩, hinvb, fb, hsb⟩ := encTy_step b ihb hinva henc
      have hdata : e2.data = e.data ++ ([3] ++ (wa ++ wb)) := by
        rw [hwb, hwa]
        show ((e.data ++ leb128Write 3) ++ wa) ++ wb = _
        rw [h3, List.append_assoc, List.append_assoc]
      refine ⟨⟨[3] ++ (wa ++ wb), hdata, by simp⟩, hinvb, ?_, ?_⟩
      · rw [hdata, List.drop_left]
        rfl
      · refine ⟨max fa fb + 1, ?_⟩
        have hread : leb128Read (e2.data.drop e.data.length) = some (3, 1) := by
          rw [hdata, List.drop_left]
          have hr := leb128Read_write 3 (wa ++ wb)
          rw [h3] at hr
          simpa using hr
        simp only [sdecodeTyKind, hread]
        norm_num
        have hpos : e.data.length + 1 = (e.emit_usize 3).data.length := by
          show _ = (e.data ++ leb128Write 3).length
          rw [h3]
          simp
        have hsa2 : sdecodeTy (max fa fb) e2.data ((e.emit_usize 3).data.length) =
            some (a, ea.data.length) := by
          apply sdecodeTy_mono (Nat.le_max_left fa fb)
          rw [hwb]
          exact sdecodeTy_append hsa
        have hsb2 : sdecodeTy (max fa fb) e2.data ea.data.length =
            some (b, e2.data.length) :=
          sdecodeTy_mono (Nat.le_max_right fa fb) hsb
        rw [hpos, hsa2]
        simp only [hsb2]
        simp

/-- Shorthand-encoding correctness for every `Ty`. -/
theorem encodeTy_ok (t : TyKind) : PTy t :=
  encTy_step t (encodeTyKind_ok t)

/-- `encode_with_shorthand` succeeds whenever the payload encoding succeeded
and the discriminant is below the threshold. -/
theorem encode_with_shorthand_total {T : Type} [DecidableEq T]
    (getCache : Encoder → List (T × Nat)) (setCache : Encoder → List (T × Nat) → Encoder)
    {discriminant : Nat} (hd : discriminant < SHORTHAND_OFFSET)
    (e1 : Encoder) (value : T) (e : Encoder) :
    ∃ e2, encode_with_shorthand getCache setCache discriminant (some e1) value e = some e2 := by
  cases hc : cacheLookup (getCache e) value with
  | some sh => exact ⟨_, encode_with_shorthand_hit _ _ _ _ hc⟩
  | none =>
    by_cases hcond : (e1.position - e.position) * 7 ≥ 64 ∨
        (e.position + SHORTHAND_OFFSET) % 2 ^ 64 < 2 ^ ((e1.position - e.position) * 7)
    · exact ⟨_, encode_with_shorthand_miss_insert _ _ hc hd hcond⟩
    · exact ⟨_, encode_with_shorthand_miss_nocache _ _ hc hd hcond⟩

/-- Encoding a `Ty` succeeds whenever its payload encoding succeeds. -/
theorem encodeTy_of_tyKind_total (t : TyKind)
    (h : ∀ e, ∃ e2, encodeTyKind t e = some e2) (e : Encoder) :
    ∃ e2, encodeTy t e = some e2 := by
  obtain ⟨e1, hp⟩ := h e
  unfold encodeTy
  rw [hp]
  exact encode_with_shorthand_total _ _ (tyDiscr_lt t) e1 t e

/-- Payload encoding always succeeds: every discriminant is in range. -/
theorem encodeTyKind_total : ∀ (t : TyKind) (e : Encoder), ∃ e2, encodeTyKind t e = some e2 := by
  intro t
  induction t with
  | bool => exact fun e => ⟨_, rfl⟩
  | uint n => exact fun e => ⟨_, rfl⟩
  | ref s ih =>
    intro e
    rw [encodeTyKind_ref]
    exact encodeTy_of_tyKind_total s ih _
  | tup2 a b iha ihb =>
    intro e
    rw [encodeTyKind_tup2]
    obtain ⟨ea, ha⟩ := encodeTy_of_tyKind_total a iha (e.emit_usize 3)
    simp only [ha]
    exact encodeTy_of_tyKind_total b ihb ea

/-- Encoding a `Ty` always succeeds. -/
theorem encodeTy_total (t : TyKind) (e : Encoder) : ∃ e2, encodeTy t e = some e2 :=
  encodeTy_of_tyKind_total t (encodeTyKind_total t) e

/-! ### Correctness of the plain region and bound-variable encoders -/

/-- A region's payload appends a non-empty record, leaves every cache
untouched, and reads back to the region. -/
theorem encodeRegionKind_ok (r : RegionKind) (e : Encoder) :
    (∃ w, (encodeRegionKind r e).data = e.data ++ w ∧ w ≠ []) ∧
    (encodeRegionKind r e).typeShorthands = e.typeShorthands ∧
    (encodeRegionKind r e).predicateShorthands = e.predicateShorthands ∧
    (encodeRegionKind r e).regionShorthands = e.regionShorthands ∧
    sdecodeRegionKind (encodeRegionKind r e).data e.data.length =
      some (r, (encodeRegionKind r e).data.length) := by
  cases r with
  | reStatic =>
    have h0 : leb128Write 0 = [0] := leb128Write_eq_of_lt (by omega)
    refine ⟨⟨leb128Write 0, rfl, by rw [h0]; simp⟩, rfl, rfl, rfl, ?_⟩
    have hread : leb128Read ((e.data ++ leb128Write 0).drop e.data.length) =
        some (0, (leb128Write 0).length) := by
      rw [List.drop_left]
      exact leb128Read_write_nil 0
    show sdecodeRegionKind (e.data ++ leb128Write 0) e.data.length = _
    simp only [sdecodeRegionKind, hread]
    norm_num
    show e.data.length + (leb128Write 0).length = (encodeRegionKind RegionKind.reStatic e).data.length
    show e.data.length + (leb128Write 0).length = (e.data ++ leb128Write 0).length
    simp
  | reVar n =>
    have h1 : leb128Write 1 = [1] := leb128Write_eq_of_lt (by omega)
    have hdata : ((e.emit_usize 1).emit_usize n).data = e.data ++ ([1] ++ leb128Write n) := by
      show e.data ++ leb128Write 1 ++ leb128Write n = _
      rw [h1, List.append_assoc]
    refine ⟨⟨[1] ++ leb128Write n, hdata, by simp⟩, rfl, rfl, rfl, ?_⟩
    have hread : leb128Read ((((e.emit_usize 1).emit_usize n).data).drop e.data.length) =
        some (1, 1) := by
      rw [hdata, List.drop_left]
      have hr := leb128Read_write 1 (leb128Write n)
      rw [h1] at hr
      simpa using hr
    have hread2 : leb128Read ((((e.emit_usize 1).emit_usize n).data).drop (e.data.length + 1)) =
        some (n, (leb128Write n).length) := by
      rw [hdata, drop_len_add_append]
      show leb128Read (([1] ++ leb128Write n).drop 1) = _
      simp only [List.singleton_append, List.drop_succ_cons, List.drop_zero]
      exact leb128Read_write_nil n
    show sdecodeRegionKind ((e.emit_usize 1).emit_usize n).data e.data.length = _
    simp only [sdecodeRegionKind, hread]
    norm_num
    rw [hread2]
    refine ⟨n, (leb128Write n).length, rfl, rfl, ?_⟩
    show e.data.length + 1 + (leb128Write n).length = ((e.emit_usize 1).emit_usize n).data.length
    rw [hdata]
    simp only [List.length_append, List.singleton_append, List.length_cons]
    omega

/-- One bound-variable element appends its single-byte discriminant, leaves
every cache untouched, and reads back. -/
theorem encodeBVK_ok (k : BoundVariableKind) (e : Encoder) :
    (encodeBVK k e).data = e.data ++ [bvDiscr k] ∧
    (encodeBVK k e).typeShorthands = e.typeShorthands ∧
    (encodeBVK k e).predicateShorthands = e.predicateShorthands ∧
    sdecodeBVK (encodeBVK k e).data e.data.length =
      some (k, (encodeBVK k e).data.length) := by
  have hd : leb128Write (bvDiscr k) = [bvDiscr k] :=
    leb128Write_eq_of_lt (by cases k <;> simp [bvDiscr])
  refine ⟨by show e.data ++ leb128Write (bvDiscr k) = _; rw [hd], rfl, rfl, ?_⟩
  have hread : leb128Read ((encodeBVK k e).data.drop e.data.length) =
      some (bvDiscr k, (leb128Write (bvDiscr k)).length) := by
    show leb128Read ((e.data ++ leb128Write (bvDiscr k)).drop e.data.length) = _
    rw [List.drop_left]
    exact leb128Read_write_nil _
  have hlen : (encodeBVK k e).data.length = e.data.length + 1 := by
    show (e.data ++ leb128Write (bvDiscr k)).length = _
    rw [hd]
    simp
  simp only [sdecodeBVK, hread]
  cases k with
  | bvRegion =>
    norm_num [bvDiscr]
    have h0 : leb128Write 0 = [0] := leb128Write_eq_of_lt (by omega)
    rw [h0, hlen]
    simp
  | bvTy =>
    norm_num [bvDiscr]
    have h1v : leb128Write 1 = [1] := leb128Write_eq_of_lt (by omega)
    rw [h1v, hlen]
    simp

/-- The bytes of an encoded bound-variable list: length prefix, then one
discriminant byte per element. -/
def bvEncBytes (l : List BoundVariableKind) : List Nat :=
  leb128Write l.length ++ l.map bvDiscr

/-- Folding the element encoder only appends the discriminant bytes. -/
theorem encodeBVKfold_eq (l : List BoundVariableKind) (e : Encoder) :
    List.foldl (fun acc k => encodeBVK k acc) e l =
      { e with data := e.data ++ l.map bvDiscr } := by
  induction l generalizing e with
  | nil => simp
  | cons k rest ih =>
    simp only [List.foldl_cons, List.map_cons]
    rw [ih]
    have hd : leb128Write (bvDiscr k) = [bvDiscr k] :=
      leb128Write_eq_of_lt (by cases k <;> simp [bvDiscr])
    show { e with data := (e.data ++ leb128Write (bvDiscr k)) ++ rest.map bvDiscr } = _
    rw [hd, List.append_assoc]
    rfl

/-- Encoding the bound-variable list appends exactly its bytes and touches
no cache. -/
theorem encodeBoundVars_eq (l : List BoundVariableKind) (e : Encoder) :
    encodeBoundVars l e = { e with data := e.data ++ bvEncBytes l } := by
  unfold encodeBoundVars
  rw [encodeBVKfold_eq]
  show { e with data := (e.data ++ leb128Write l.length) ++ l.map bvDiscr } = _
  rw [List.append_assoc]
  rfl

/-- Folding the element encoder produces a list of records that reads back
to the element list. -/
theorem encodeBVKfold_ok (l : List BoundVariableKind) (e : Encoder) :
    sdecodeBVKList l.length
        (List.foldl (fun acc k => encodeBVK k acc) e l).data e.data.length =
      some (l, (List.foldl (fun acc k => encodeBVK k acc) e l).data.length) := by
  induction l generalizing e with
  | nil => simp [sdecodeBVKList]
  | cons k rest ih =>
    simp only [List.foldl_cons, List.length_cons]
    have hsd := ih (encodeBVK k e)
    obtain ⟨hkd, hkty, hkpred, hkdec⟩ := encodeBVK_ok k e
    have hext : ∃ w, (List.foldl (fun acc k => encodeBVK k acc) (encodeBVK k e) rest).data =
        (encodeBVK k e).data ++ w := by
      rw [encodeBVKfold_eq]
      exact ⟨rest.map bvDiscr, rfl⟩
    obtain ⟨w, hwdata⟩ := hext
    have hk2 : sdecodeBVK (List.foldl (fun acc k => encodeBVK k acc) (encodeBVK k e) rest).data
        e.data.length = some (k, (encodeBVK k e).data.length) := by
      rw [hwdata]
      exact sdecodeBVK_append hkdec
    simp only [sdecodeBVKList, hk2, hsd]
    rfl

/-- Encoding the bound-variable list produces a stream segment that reads
back to the list, ending at the new stream end. -/
theorem encodeBoundVars_ok (l : List BoundVariableKind) (e : Encoder) :
    sdecodeBoundVars (encodeBoundVars l e).data e.data.length =
      some (l, (encodeBoundVars l e).data.length) := by
  unfold encodeBoundVars
  have hsd := encodeBVKfold_ok l (e.emit_usize l.length)
  have hwdata : (List.foldl (fun acc k => encodeBVK k acc) (e.emit_usize l.length) l).data =
      (e.data ++ leb128Write l.length) ++ l.map bvDiscr := by
    rw [encodeBVKfold_eq]
    rfl
  have hread : leb128Read
      ((List.foldl (fun acc k => encodeBVK k acc) (e.emit_usize l.length) l).data.drop
        e.data.length) = some (l.length, (leb128Write l.length).length) := by
    rw [hwdata, List.append_assoc, List.drop_left]
    exact leb128Read_write _ _
  simp only [sdecodeBoundVars, hread]
  have hpos : e.data.length + (leb128Write l.length).length =
      (e.emit_usize l.length).data.length := by
    show _ = (e.data ++ leb128Write l.length).length
    simp
  rw [hpos]
  exact hsd

/-! ### Correctness of the predicate payload encoder -/

/-- Unfolding: the `wellFormed` payload is the discriminant followed by the
nested shorthand-encoded type. -/
theorem encodePredicateKind_wellFormed (t : TyKind) (e : Encoder) :
    encodePredicateKind (.wellFormed t) e = encodeTy t (e.emit_usize 1) := rfl

/-- Unfolding: the `regionOutlives` payload is the discriminant followed by
the two plainly encoded regions. -/
theorem encodePredicateKind_regionOutlives (a b : RegionKind) (e : Encoder) :
    encodePredicateKind (.regionOutlives a b) e =
      some (encodeRegion b (encodeRegion a (e.emit_usize 2))) := rfl

/-- Payload-encoding correctness for every `PredicateKind`: a non-empty
record is appended, the invariant is preserved, and the record reads back. -/
theorem encodePredicateKind_ok (pk : PredicateKind) {e e2 : Encoder}
    (hinv : EncInv e) (henc : encodePredicateKind pk e = some e2) :
    (∃ w, e2.data = e.data ++ w ∧ w ≠ []) ∧
    EncInv e2 ∧
    (e2.data.drop e.data.length).head? = some (predDiscr pk) ∧
    ∃ fuel, sdecodePredicateKind fuel e2.data e.data.length = some (pk, e2.data.length) := by
  cases pk with
  | ambiguous =>
    simp only [encodePredicateKind] at henc
    obtain rfl : e.emit_usize 0 = e2 := Option.some.inj henc
    have h0 : leb128Write 0 = [0] := leb128Write_eq_of_lt (by omega)
    refine ⟨⟨leb128Write 0, rfl, by rw [h0]; simp⟩, EncInv_emit hinv 0, ?_, ?_⟩
    · show ((e.data ++ leb128Write 0).drop e.data.length).head? = _
      rw [List.drop_left, h0]
      rfl
    · refine ⟨0, ?_⟩
      have hread : leb128Read ((e.data ++ leb128Write 0).drop e.data.length) =
          some (0, (leb128Write 0).length) := by
        rw [List.drop_left]
        exact leb128Read_write_nil 0
      show sdecodePredicateKind 0 (e.data ++ leb128Write 0) e.data.length = _
      simp only [sdecodePredicateKind, hread]
      norm_num
      show e.data.length + (leb128Write 0).length = (e.data ++ leb128Write 0).length
      simp
  | wellFormed t =>
    rw [encodePredicateKind_wellFormed] at henc
    have h1 : leb128Write 1 = [1] := leb128Write_eq_of_lt (by omega)
    obtain ⟨⟨w, hw, hwne⟩, hinv2, fuel, hs⟩ := encodeTy_ok t (EncInv_emit hinv 1) henc
    have hdata : e2.data = e.data ++ ([1] ++ w) := by
      rw [hw]
      show (e.data ++ leb128Write 1) ++ w = _
      rw [h1, List.append_assoc]
    refine ⟨⟨[1] ++ w, hdata, by simp⟩, hinv2, ?_, ?_⟩
    · rw [hdata, List.drop_left]
      rfl
    · refine ⟨fuel, ?_⟩
      have hread : leb128Read (e2.data.drop e.data.length) = some (1, 1) := by
        rw [hdata, List.drop_left]
        have hr := leb128Read_write 1 w
        rw [h1] at hr
        simpa using hr
      have hpos : e.data.length + 1 = (e.emit_usize 1).data.length := by
        show _ = (e.data ++ leb128Write 1).length
        rw [h1]
        simp
      simp only [sdecodePredicateKind, hread]
      norm_num
      rw [hpos, hs]
  | regionOutlives a b =>
    rw [encodePredicateKind_regionOutlives] at henc
    obtain rfl : encodeRegion b (encodeRegion a (e.emit_usize 2)) = e2 := Option.some.inj henc
    have h2 : leb128Write 2 = [2] := leb128Write_eq_of_lt (by omega)
    obtain ⟨⟨wa, hwa, hwane⟩, htya, hpreda, hrega, hsda⟩ :=
      encodeRegionKind_ok a (e.emit_usize 2)
    obtain ⟨⟨wb, hwb, hwbne⟩, htyb, hpredb, hregb, hsdb⟩ :=
      encodeRegionKind_ok b (encodeRegion a (e.emit_usize 2))
    have hdata : (encodeRegion b (encodeRegion a (e.emit_usize 2))).data =
        e.data ++ ([2] ++ (wa ++ wb)) := by
      show (encodeRegionKind b (encodeRegion a (e.emit_usize 2))).data = _
      rw [hwb]
      show (encodeRegionKind a (e.emit_usize 2)).data ++ wb = _
      rw [hwa]
      show ((e.data ++ leb128Write 2) ++ wa) ++ wb = _
      rw [h2, List.append_assoc, List.append_assoc]
    refine ⟨⟨[2] ++ (wa ++ wb), hdata, by simp⟩, ?_, ?_, ?_⟩
    · refine EncInv_extend hinv ([2] ++ (wa ++ wb)) hdata ?_ ?_
      · show (encodeRegionKind b (encodeRegion a (e.emit_usize 2))).typeShorthands = _
        rw [htyb]
        show (encodeRegionKind a (e.emit_usize 2)).typeShorthands = _
        rw [htya]
        rfl
      · show (encodeRegionKind b (encodeRegion a (e.emit_usize 2))).predicateShorthands = _
        rw [hpredb]
        show (encodeRegionKind a (e.emit_usize 2)).predicateShorthands = _
        rw [hpreda]
        rfl
    · rw [hdata, List.drop_left]
      rfl
    · refine ⟨0, ?_⟩
      have hread : leb128Read
          ((encodeRegion b (encodeRegion a (e.emit_usize 2))).data.drop e.data.length) =
          some (2, 1) := by
        rw [hdata, List.drop_left]
        have hr := leb128Read_write 2 (wa ++ wb)
        rw [h2] at hr
        simpa using hr
      have hpos : e.data.length + 1 = (e.emit_usize 2).data.length := by
        show _ = (e.data ++ leb128Write 2).length
        rw [h2]
        simp
      have hsa2 : sdecodeRegionKind (encodeRegion b (encodeRegion a (e.emit_usize 2))).data
          ((e.emit_usize 2).data.length) =
          some (a, (encodeRegion a (e.emit_usize 2)).data.length) := by
        show sdecodeRegionKind (encodeRegionKind b (encodeRegion a (e.emit_usize 2))).data _ = _
        rw [hwb]
        exact sdecodeRegionKind_append hsda
      have hsdb2 : sdecodeRegionKind (encodeRegion b (encodeRegion a (e.emit_usize 2))).data
          (encodeRegion a (e.emit_usize 2)).data.length =
          some (b, (encodeRegion b (encodeRegion a (e.emit_usize 2))).data.length) := hsdb
      simp only [sdecodePredicateKind, hread]
      norm_num
      rw [hpos, hsa2]
      simp only [hsdb2]
      rfl

/-! ### Correctness of the binder and constant encoders -/

/-- Unfolding: the binder encode is the bound-variable list followed by the
shorthand-encoded body. -/
theorem encodeBinderPredicate_eq (b : BinderPredicate) (e : Encoder) :
    encodeBinderPredicate b e =
      encode_with_shorthand Encoder.predicateShorthands Encoder.setPredicateShorthands
        (predDiscr b.body) (encodePredicateKind b.body (encodeBoundVars b.boundVars e))
        b.body (encodeBoundVars b.boundVars e) := rfl

/-- Binder-encoding correctness: the bound-variable list and the body (in
full or as a back-reference) are appended, the invariant is preserved, and
the whole record reads back to the binder. -/
theorem encodeBinderPredicate_ok (b : BinderPredicate) {e e2 : Encoder}
    (hinv : EncInv e) (henc : encodeBinderPredicate b e = some e2) :
    (∃ w, e2.data = e.data ++ w) ∧
    EncInv e2 ∧
    ∃ fuel, sdecodeBinderPredicate fuel e2.data e.data.length = some (b, e2.data.length) := by
  rw [encodeBinderPredicate_eq] at henc
  set e1 := encodeBoundVars b.boundVars e with he1
  have he1eq : e1 = { e with data := e.data ++ bvEncBytes b.boundVars } :=
    encodeBoundVars_eq b.boundVars e
  have hinv1 : EncInv e1 := by
    refine EncInv_extend hinv (bvEncBytes b.boundVars) ?_ ?_ ?_ <;> rw [he1eq]
  have hbv : sdecodeBoundVars e1.data e.data.length = some (b.boundVars, e1.data.length) :=
    encodeBoundVars_ok b.boundVars e
  have he1data : e1.data = e.data ++ bvEncBytes b.boundVars := by rw [he1eq]
  cases hc : cacheLookup e1.predicateShorthands b.body with
  | some sh =>
    rw [encode_with_shorthand_hit _ _ _ _ hc] at henc
    obtain rfl : e1.emit_usize sh = e2 := Option.some.inj henc
    obtain ⟨hsh1, hsh2, hat⟩ := hinv1.2 (b.body, sh) (cacheLookup_mem hc)
    have hdata2 : (e1.emit_usize sh).data = e1.data ++ leb128Write sh := rfl
    refine ⟨⟨bvEncBytes b.boundVars ++ leb128Write sh, by
      rw [hdata2, he1data, List.append_assoc]⟩, EncInv_emit hinv1 sh, ?_⟩
    have hat2 : PredKindAt (e1.emit_usize sh).data (sh - SHORTHAND_OFFSET) b.body := by
      rw [hdata2]
      exact PredKindAt_append hat
    obtain ⟨fuel0, q0, hp0⟩ := hat2
    refine ⟨fuel0, ?_⟩
    have hbv2 : sdecodeBoundVars (e1.emit_usize sh).data e.data.length =
        some (b.boundVars, e1.data.length) := by
      rw [hdata2]
      exact sdecodeBoundVars_append hbv
    have hdrop : (e1.emit_usize sh).data.drop e1.data.length = leb128Write sh := by
      rw [hdata2, List.drop_left]
    obtain ⟨hb, hbh, hb128⟩ := leb128Write_head_of_ge (show 128 ≤ sh from hsh1)
    have hhead : ((e1.emit_usize sh).data.drop e1.data.length).head? = some hb := by
      rw [hdrop]
      exact hbh
    have hread : leb128Read ((e1.emit_usize sh).data.drop e1.data.length) =
        some (sh, (leb128Write sh).length) := by
      rw [hdrop]
      exact leb128Read_write_nil sh
    have hb2 : SHORTHAND_OFFSET ≤ hb := hb128
    simp only [sdecodeBinderPredicate, hbv2, hhead]
    rw [if_pos hb2]
    simp only [hread]
    rw [if_pos hsh1]
    simp only [hp0]
    have hfin : e1.data.length + (leb128Write sh).length = (e1.emit_usize sh).data.length := by
      rw [hdata2]
      simp
    rw [hfin]
    rfl
  | none =>
    rw [show Encoder.predicateShorthands = (fun e : Encoder => e.predicateShorthands) from rfl]
      at henc
    simp only [encode_with_shorthand, hc] at henc
    cases hp : encodePredicateKind b.body e1 with
    | none => simp only [hp] at henc; cases henc
    | some ep =>
      simp only [hp] at henc
      obtain ⟨⟨w, hw, hwne⟩, hinvp, hhead, fuel, hsdec⟩ := encodePredicateKind_ok b.body hinv1 hp
      have hlt : e1.data.length < ep.data.length := by
        rw [hw, List.length_append]
        cases w with
        | nil => exact absurd rfl hwne
        | cons x xs => simp
      rw [if_pos (by have := predDiscr_lt b.body; omega)] at henc
      have hbv2 : sdecodeBoundVars ep.data e.data.length =
          some (b.boundVars, e1.data.length) := by
        rw [hw]
        exact sdecodeBoundVars_append hbv
      have hplain : ∀ ez : Encoder, ez.data = ep.data →
          sdecodeBinderPredicate fuel ez.data e.data.length = some (b, ez.data.length) := by
        intro ez hez
        rw [hez]
        have hdd := predDiscr_lt b.body
        simp only [sdecodeBinderPredicate, hbv2, hhead]
        rw [if_neg (by omega)]
        simp only [hsdec]
        rfl
      by_cases hcond : (ep.position - e1.position) * 7 ≥ 64 ∨
          (e1.position + SHORTHAND_OFFSET) % 2 ^ 64 < 2 ^ ((ep.position - e1.position) * 7)
      · rw [if_pos hcond] at henc
        obtain rfl : Encoder.setPredicateShorthands ep
            (cacheInsert ep.predicateShorthands b.body (e1.position + SHORTHAND_OFFSET)) = e2 :=
          Option.some.inj henc
        refine ⟨⟨bvEncBytes b.boundVars ++ w, by
          show ep.data = _
          rw [hw, he1data, List.append_assoc]⟩, ?_, fuel, hplain _ rfl⟩
        constructor
        · exact hinvp.1
        · intro ps hps
          rcases List.mem_cons.mp hps with hps1 | hps2
          · subst hps1
            refine ⟨Nat.le_add_left _ _, ?_, ?_⟩
            · show e1.position + SHORTHAND_OFFSET - SHORTHAND_OFFSET < ep.data.length
              have : e1.position = e1.data.length := rfl
              omega
            · show PredKindAt ep.data (e1.position + SHORTHAND_OFFSET - SHORTHAND_OFFSET) b.body
              have hpos : e1.position + SHORTHAND_OFFSET - SHORTHAND_OFFSET = e1.data.length := by
                have : e1.position = e1.data.length := rfl
                omega
              rw [hpos]
              exact ⟨fuel, ep.data.length, hsdec⟩
          · exact hinvp.2 ps hps2
      · rw [if_neg hcond] at henc
        obtain rfl : ep = e2 := Option.some.inj henc
        refine ⟨⟨bvEncBytes b.boundVars ++ w, by
          rw [hw, he1data, List.append_assoc]⟩, hinvp, fuel, hplain _ rfl⟩

/-- Constant-payload correctness: the type record (possibly a
back-reference) and the value bytes are appended, the invariant is
preserved, and the payload reads back to the constant. -/
theorem encodeConstS_ok (c : ConstS) {e e2 : Encoder}
    (hinv : EncInv e) (henc : encodeConstS c e = some e2) :
    (∃ w, e2.data = e.data ++ w ∧ w ≠ []) ∧
    EncInv e2 ∧
    ∃ fuel, sdecodeConstS fuel e2.data e.data.length = some (c, e2.data.length) := by
  unfold encodeConstS at henc
  cases ht : encodeTy c.ty e with
  | none => simp only [ht] at henc; cases henc
  | some et =>
    simp only [ht, Option.map_some'] at henc
    obtain rfl : et.emit_usize c.val = e2 := Option.some.inj henc
    obtain ⟨⟨w, hw, hwne⟩, hinvt, fuel, hs⟩ := encodeTy_ok c.ty hinv ht
    have hdata : (et.emit_usize c.val).data = et.data ++ leb128Write c.val := rfl
    refine ⟨⟨w ++ leb128Write c.val, by rw [hdata, hw, List.append_assoc], by
      intro hnil
      have hlp := leb128Write_length_pos c.val
      have hlen0 : (w ++ leb128Write c.val).length = 0 := by rw [hnil]; rfl
      rw [List.length_append] at hlen0
      omega⟩, EncInv_emit hinvt c.val, ?_⟩
    · refine ⟨fuel, ?_⟩
      have hs2 : sdecodeTy fuel (et.emit_usize c.val).data e.data.length =
          some (c.ty, et.data.length) := by
        rw [hdata]
        exact sdecodeTy_append hs
      have hread : leb128Read ((et.emit_usize c.val).data.drop et.data.length) =
          some (c.val, (leb128Write c.val).length) := by
        rw [hdata, List.drop_left]
        exact leb128Read_write_nil _
      simp only [sdecodeConstS, hs2, hread, Option.map_some', Option.some.injEq,
        Prod.mk.injEq]
      constructor
      · trivial
      · show et.data.length + (leb128Write c.val).length = (et.data ++ leb128Write c.val).length
        simp

/-- Predicate payload encoding always succeeds. -/
theorem encodePredicateKind_total (pk : PredicateKind) (e : Encoder) :
    ∃ e2, encodePredicateKind pk e = some e2 := by
  cases pk with
  | ambiguous => exact ⟨_, rfl⟩
  | wellFormed t =>
    rw [encodePredicateKind_wellFormed]
    exact encodeTy_total t _
  | regionOutlives a b => exact ⟨_, rfl⟩

/-- Binder encoding always succeeds. -/
theorem encodeBinderPredicate_total (b : BinderPredicate) (e : Encoder) :
    ∃ e2, encodeBinderPredicate b e = some e2 := by
  rw [encodeBinderPredicate_eq]
  obtain ⟨ep, hp⟩ := encodePredicateKind_total b.body (encodeBoundVars b.boundVars e)
  rw [hp]
  exact encode_with_shorthand_total _ _ (predDiscr_lt b.body) ep b.body _

/-- Constant encoding always succeeds. -/
theorem encodeConstS_total (c : ConstS) (e : Encoder) :
    ∃ e2, encodeConstS c e = some e2 := by
  unfold encodeConstS
  obtain ⟨et, ht⟩ := encodeTy_total c.ty e
  rw [ht]
  exact ⟨_, rfl⟩

/-! ### The stateful decoder agrees with the stream meaning

`DecCacheOk` says every entry of the per-decoder position-to-type cache is
the value the stream really holds at that position; under it, the stateful
decoder returns exactly what the stream meaning prescribes, and its cache
stays coherent. -/

/-- Coherence of the position-to-type cache with the buffer. -/
def DecCacheOk (data : List Nat) (dc : List (Nat × TyKind)) : Prop :=
  ∀ pv ∈ dc, TyAt data pv.1 pv.2

/-- The impl region decode is the stream meaning with the state threaded. -/
theorem decodeRegionKind_eq (data : List Nat) (p : Nat) (dc : List (Nat × TyKind)) :
    decodeRegionKind ⟨data, p, dc⟩ =
      (sdecodeRegionKind data p).map fun rq => (rq.1, (⟨data, rq.2, dc⟩ : Decoder)) := by
  unfold decodeRegionKind sdecodeRegionKind Decoder.read_usize
  cases hr : leb128Read (data.drop p) with
  | none => rfl
  | some dk =>
    obtain ⟨disc, k⟩ := dk
    simp only [Option.map_some']
    by_cases h0 : disc = 0
    · simp [h0]
    · by_cases h1 : disc = 1
      · simp only [if_neg h0, if_pos h1]
        cases hn : leb128Read (data.drop (p + k)) with
        | none => rfl
        | some nk => rfl
      · simp [if_neg h0, if_neg h1]

/-- The impl bound-variable-element decode is the stream meaning with the
state threaded. -/
theorem decodeBVK_eq (data : List Nat) (p : Nat) (dc : List (Nat × TyKind)) :
    decodeBVK ⟨data, p, dc⟩ =
      (sdecodeBVK data p).map fun kq => (kq.1, (⟨data, kq.2, dc⟩ : Decoder)) := by
  unfold decodeBVK sdecodeBVK Decoder.read_usize
  cases hr : leb128Read (data.drop p) with
  | none => rfl
  | some dk =>
    obtain ⟨disc, k⟩ := dk
    simp only [Option.map_some']
    by_cases h0 : disc = 0
    · simp [h0]
    · by_cases h1 : disc = 1
      · simp [if_neg h0, if_pos h1]
      · simp [if_neg h0, if_neg h1]

/-- The impl bound-variable-list loop is the stream meaning with the state
threaded. -/
theorem decodeBVKList_eq (n : Nat) (data : List Nat) (p : Nat) (dc : List (Nat × TyKind)) :
    decodeBVKList n ⟨data, p, dc⟩ =
      (sdecodeBVKList n data p).map fun lq => (lq.1, (⟨data, lq.2, dc⟩ : Decoder)) := by
  induction n generalizing p with
  | zero => rfl
  | succ n ih =>
    unfold decodeBVKList sdecodeBVKList
    rw [decodeBVK_eq]
    cases hk : sdecodeBVK data p with
    | none => rfl
    | some kq =>
      obtain ⟨k, q⟩ := kq
      simp only [Option.map_some']
      rw [ih q]
      cases hl : sdecodeBVKList n data q with
      | none => rfl
      | some lq => rfl

/-- The impl bound-variable-list decode is the stream meaning with the
state threaded. -/
theorem decodeBoundVars_eq (data : List Nat) (p : Nat) (dc : List (Nat × TyKind)) :
    decodeBoundVars ⟨data, p, dc⟩ =
      (sdecodeBoundVars data p).map fun lq => (lq.1, (⟨data, lq.2, dc⟩ : Decoder)) := by
  unfold decodeBoundVars sdecodeBoundVars Decoder.read_usize
  cases hr : leb128Read (data.drop p) with
  | none => rfl
  | some lk =>
    obtain ⟨len, k⟩ := lk
    simp only [Option.map_some']
    exact decodeBVKList_eq len data (p + k) dc

/-- The stateful `decodeTy`/`decodeTyKind` return exactly what the stream
meaning prescribes, starting from any coherent cache, and leave a coherent
cache — proved jointly by induction on fuel.  A cache hit short-circuits the
re-decode, so the same fuel always suffices. -/
theorem decodeTy_tyKind_complete :
    ∀ fuel : Nat,
      (∀ {data : List Nat} {p : Nat} {t : TyKind} {q : Nat} {dc : List (Nat × TyKind)},
        sdecodeTy fuel data p = some (t, q) → DecCacheOk data dc →
        ∃ dc2, decodeTy fuel ⟨data, p, dc⟩ = some (t, ⟨data, q, dc2⟩) ∧ DecCacheOk data dc2)
      ∧ (∀ {data : List Nat} {p : Nat} {t : TyKind} {q : Nat} {dc : List (Nat × TyKind)},
        sdecodeTyKind fuel data p = some (t, q) → DecCacheOk data dc →
        ∃ dc2, decodeTyKind fuel ⟨data, p, dc⟩ = some (t, ⟨data, q, dc2⟩) ∧
          DecCacheOk data dc2) := by
  intro fuel
  induction fuel with
  | zero =>
    constructor
    · intro data p t q dc h _
      simp [sdecodeTy] at h
    · intro data p t q dc h _
      simp [sdecodeTyKind] at h
  | succ fuel ih =>
    constructor
    · intro data p t q dc h hok
      simp only [sdecodeTy] at h
      cases hh : (data.drop p).head? with
      | none => simp only [hh] at h; cases h
      | some b =>
        simp only [hh] at h
        by_cases hb : SHORTHAND_OFFSET ≤ b
        · rw [if_pos hb] at h
          cases hr : leb128Read (data.drop p) with
          | none => simp only [hr] at h; cases h
          | some vk =>
            obtain ⟨pos, k⟩ := vk
            simp only [hr] at h
            by_cases hv : SHORTHAND_OFFSET ≤ pos
            · rw [if_pos hv] at h
              cases hs : sdecodeTy fuel data (pos - SHORTHAND_OFFSET) with
              | none => simp only [hs] at h; cases h
              | some tq =>
                obtain ⟨t0, q0⟩ := tq
                simp only [hs, Option.some.injEq, Prod.mk.injEq] at h
                obtain ⟨rfl, rfl⟩ := h
                have hposb : Decoder.positioned_at_shorthand ⟨data, p, dc⟩ = true := by
                  simp [Decoder.positioned_at_shorthand, hh, hb]
                have hru : Decoder.read_usize ⟨data, p, dc⟩ =
                    some (pos, ⟨data, p + k, dc⟩) := by
                  simp [Decoder.read_usize, hr]
                simp only [decodeTy, hposb, if_true, hru]
                rw [if_pos hv]
                cases hcc : cacheLookup dc (pos - SHORTHAND_OFFSET) with
                | some t1 =>
                  obtain ⟨f0, q1, h0⟩ := hok _ (cacheLookup_mem hcc)
                  have huq : (t1, q1) = (t0, q0) := sdecodeTy_unique h0 hs
                  obtain ⟨rfl, rfl⟩ : t1 = t0 ∧ q1 = q0 := by
                    exact ⟨congrArg Prod.fst huq, congrArg Prod.snd huq⟩
                  refine ⟨dc, ?_, hok⟩
                  simp [Decoder.cached_ty_for_shorthand, hcc]
                | none =>
                  obtain ⟨dc2, himpl, hok2⟩ := ih.1 hs hok
                  refine ⟨cacheInsert dc2 (pos - SHORTHAND_OFFSET) t0, ?_, ?_⟩
                  · simp only [Decoder.cached_ty_for_shorthand, hcc]
                    have hwp : Decoder.with_position (⟨data, p + k, dc⟩ : Decoder)
                        (pos - SHORTHAND_OFFSET) (decodeTy fuel) =
                        some (t0, ⟨data, p + k, dc2⟩) := by
                      show (decodeTy fuel (⟨data, pos - SHORTHAND_OFFSET, dc⟩ : Decoder)).map
                          (fun ad => (ad.1, { ad.2 with pos := p + k })) =
                        some (t0, (⟨data, p + k, dc2⟩ : Decoder))
                      rw [himpl]
                      rfl
                    rw [hwp]
                    rfl
                  · intro pv hpv
                    rcases List.mem_cons.mp hpv with h1 | h2
                    · subst h1
                      exact ⟨fuel, q0, hs⟩
                    · exact hok2 pv h2
            · rw [if_neg hv] at h; cases h
        · rw [if_neg hb] at h
          cases hk : sdecodeTyKind fuel data p with
          | none => simp only [hk] at h; cases h
          | some tq =>
            obtain ⟨t0, q0⟩ := tq
            simp only [hk, Option.map_some', Option.some.injEq, Prod.mk.injEq, mk_ty] at h
            obtain ⟨rfl, rfl⟩ := h
            have hposb : Decoder.positioned_at_shorthand ⟨data, p, dc⟩ = false := by
              simp [Decoder.positioned_at_shorthand, hh, hb]
            obtain ⟨dc2, himpl, hok2⟩ := ih.2 hk hok
            refine ⟨dc2, ?_, hok2⟩
            simp only [decodeTy, hposb, Bool.false_eq_true, if_false, himpl]
            rfl
    · intro data p t q dc h hok
      simp only [sdecodeTyKind] at h
      cases hr : leb128Read (data.drop p) with
      | none => simp only [hr] at h; cases h
      | some dk =>
        obtain ⟨disc, k⟩ := dk
        simp only [hr] at h
        have hru : Decoder.read_usize ⟨data, p, dc⟩ = some (disc, ⟨data, p + k, dc⟩) := by
          simp [Decoder.read_usize, hr]
        simp only [decodeTyKind, hru]
        by_cases h0 : disc = 0
        · rw [if_pos h0] at h ⊢
          simp only [Option.some.injEq, Prod.mk.injEq] at h
          obtain ⟨rfl, rfl⟩ := h
          exact ⟨dc, rfl, hok⟩
        · rw [if_neg h0] at h ⊢
          by_cases h1 : disc = 1
          · rw [if_pos h1] at h ⊢
            cases hn : leb128Read (data.drop (p + k)) with
            | none => simp only [hn] at h; cases h
            | some nk =>
              obtain ⟨n2, k2⟩ := nk
              simp only [hn, Option.map_some', Option.some.injEq, Prod.mk.injEq] at h
              obtain ⟨rfl, rfl⟩ := h
              have hru2 : Decoder.read_usize ⟨data, p + k, dc⟩ =
                  some (n2, ⟨data, p + k + k2, dc⟩) := by
                simp [Decoder.read_usize, hn]
              refine ⟨dc, ?_, hok⟩
              rw [hru2]
              rfl
          · rw [if_neg h1] at h ⊢
            by_cases h2 : disc = 2
            · rw [if_pos h2] at h ⊢
              cases hs : sdecodeTy fuel data (p + k) with
              | none => simp only [hs] at h; cases h
              | some tq =>
                obtain ⟨t0, q0⟩ := tq
                simp only [hs, Option.map_some', Option.some.injEq, Prod.mk.injEq] at h
                obtain ⟨rfl, rfl⟩ := h
                obtain ⟨dc2, himpl, hok2⟩ := ih.1 hs hok
                refine ⟨dc2, ?_, hok2⟩
                rw [himpl]
                rfl
            · rw [if_neg h2] at h ⊢
              by_cases h3 : disc = 3
              · rw [if_pos h3] at h ⊢
                cases hs : sdecodeTy fuel data (p + k) with
                | none => simp only [hs] at h; cases h
                | some aq =>
                  obtain ⟨a, qa⟩ := aq
                  simp only [hs] at h
                  cases hs2 : sdecodeTy fuel data qa with
                  | none => simp only [hs2] at h; cases h
                  | some bq =>
                    obtain ⟨b2, qb⟩ := bq
                    simp only [hs2, Option.map_some', Option.some.injEq, Prod.mk.injEq] at h
                    obtain ⟨rfl, rfl⟩ := h
                    obtain ⟨dc2, himpl, hok2⟩ := ih.1 hs hok
                    obtain ⟨dc3, himpl2, hok3⟩ := ih.1 hs2 hok2
                    refine ⟨dc3, ?_, hok3⟩
                    rw [himpl]
                    simp only [himpl2]
                    rfl
              · rw [if_neg h3] at h; cases h

/-- Completeness of the stateful `decodeTy`. -/
theorem decodeTy_complete {fuel : Nat} {data : List Nat} {p : Nat} {t : TyKind} {q : Nat}
    {dc : List (Nat × TyKind)} (h : sdecodeTy fuel data p = some (t, q))
    (hok : DecCacheOk data dc) :
    ∃ dc2, decodeTy fuel ⟨data, p, dc⟩ = some (t, ⟨data, q, dc2⟩) ∧ DecCacheOk data dc2 :=
  (decodeTy_tyKind_complete fuel).1 h hok

/-- Completeness of the stateful `decodePredicateKind`. -/
theorem decodePredicateKind_complete {fuel : Nat} {data : List Nat} {p : Nat}
    {pk : PredicateKind} {q : Nat} {dc : List (Nat × TyKind)}
    (h : sdecodePredicateKind fuel data p = some (pk, q)) (hok : DecCacheOk data dc) :
    ∃ dc2, decodePredicateKind fuel ⟨data, p, dc⟩ = some (pk, ⟨data, q, dc2⟩) ∧
      DecCacheOk data dc2 := by
  simp only [sdecodePredicateKind] at h
  cases hr : leb128Read (data.drop p) with
  | none => simp only [hr] at h; cases h
  | some dk =>
    obtain ⟨disc, k⟩ := dk
    simp only [hr] at h
    have hru : Decoder.read_usize ⟨data, p, dc⟩ = some (disc, ⟨data, p + k, dc⟩) := by
      simp [Decoder.read_usize, hr]
    simp only [decodePredicateKind, hru]
    by_cases h0 : disc = 0
    · rw [if_pos h0] at h ⊢
      simp only [Option.some.injEq, Prod.mk.injEq] at h
      obtain ⟨rfl, rfl⟩ := h
      exact ⟨dc, rfl, hok⟩
    · rw [if_neg h0] at h ⊢
      by_cases h1 : disc = 1
      · rw [if_pos h1] at h ⊢
        cases hs : sdecodeTy fuel data (p + k) with
        | none => simp only [hs] at h; cases h
        | some tq =>
          obtain ⟨t0, q0⟩ := tq
          simp only [hs, Option.map_some', Option.some.injEq, Prod.mk.injEq] at h
          obtain ⟨rfl, rfl⟩ := h
          obtain ⟨dc2, himpl, hok2⟩ := decodeTy_complete hs hok
          refine ⟨dc2, ?_, hok2⟩
          rw [himpl]
          rfl
      · rw [if_neg h1] at h ⊢
        by_cases h2 : disc = 2
        · rw [if_pos h2] at h ⊢
          cases ha : sdecodeRegionKind data (p + k) with
          | none => simp only [ha] at h; cases h
          | some aq =>
            obtain ⟨a, qa⟩ := aq
            simp only [ha] at h
            cases hb : sdecodeRegionKind data qa with
            | none => simp only [hb] at h; cases h
            | some bq =>
              obtain ⟨b2, qb⟩ := bq
              simp only [hb, Option.map_some', Option.some.injEq, Prod.mk.injEq] at h
              obtain ⟨rfl, rfl⟩ := h
              refine ⟨dc, ?_, hok⟩
              have hra : decodeRegion (⟨data, p + k, dc⟩ : Decoder) =
                  some (a, ⟨data, qa, dc⟩) := by
                unfold decodeRegion
                rw [decodeRegionKind_eq, ha]
                rfl
              have hrb : decodeRegion (⟨data, qa, dc⟩ : Decoder) =
                  some (b2, ⟨data, qb, dc⟩) := by
                unfold decodeRegion
                rw [decodeRegionKind_eq, hb]
                rfl
              rw [hra]
              simp only [hrb]
              rfl
        · rw [if_neg h2] at h; cases h

/-- Completeness of the stateful `decodeBinderPredicate`. -/
theorem decodeBinderPredicate_complete {fuel : Nat} {data : List Nat} {p : Nat}
    {b : BinderPredicate} {q : Nat} {dc : List (Nat × TyKind)}
    (h : sdecodeBinderPredicate fuel data p = some (b, q)) (hok : DecCacheOk data dc) :
    ∃ dc2, decodeBinderPredicate fuel ⟨data, p, dc⟩ = some (b, ⟨data, q, dc2⟩) ∧
      DecCacheOk data dc2 := by
  simp only [sdecodeBinderPredicate] at h
  cases hbv : sdecodeBoundVars data p with
  | none => simp only [hbv] at h; cases h
  | some bvq =>
    obtain ⟨bv, q1⟩ := bvq
    simp only [hbv] at h
    have hbv2 : decodeBoundVars ⟨data, p, dc⟩ = some (bv, ⟨data, q1, dc⟩) := by
      rw [decodeBoundVars_eq, hbv]
      rfl
    simp only [decodeBinderPredicate, hbv2]
    cases hh : (data.drop q1).head? with
    | none => simp only [hh] at h; cases h
    | some hb0 =>
      simp only [hh] at h
      by_cases hb : SHORTHAND_OFFSET ≤ hb0
      · rw [if_pos hb] at h
        cases hr : leb128Read (data.drop q1) with
        | none => simp only [hr] at h; cases h
        | some vk =>
          obtain ⟨pos, k⟩ := vk
          simp only [hr] at h
          by_cases hv : SHORTHAND_OFFSET ≤ pos
          · rw [if_pos hv] at h
            cases hs : sdecodePredicateKind fuel data (pos - SHORTHAND_OFFSET) with
            | none => simp only [hs] at h; cases h
            | some pq =>
              obtain ⟨pk, q0⟩ := pq
              simp only [hs, Option.some.injEq, Prod.mk.injEq] at h
              obtain ⟨rfl, rfl⟩ := h
              have hposb : Decoder.positioned_at_shorthand ⟨data, q1, dc⟩ = true := by
                simp [Decoder.positioned_at_shorthand, hh, hb]
              have hru : Decoder.read_usize ⟨data, q1, dc⟩ =
                  some (pos, ⟨data, q1 + k, dc⟩) := by
                simp [Decoder.read_usize, hr]
              simp only [hposb, if_true, hru]
              rw [if_pos hv]
              obtain ⟨dc2, himpl, hok2⟩ := decodePredicateKind_complete hs hok
              have hwp : Decoder.with_position (⟨data, q1 + k, dc⟩ : Decoder)
                  (pos - SHORTHAND_OFFSET) (decodePredicateKind fuel) =
                  some (pk, ⟨data, q1 + k, dc2⟩) := by
                show (decodePredicateKind fuel (⟨data, pos - SHORTHAND_OFFSET, dc⟩ : Decoder)).map
                    (fun ad => (ad.1, { ad.2 with pos := q1 + k })) =
                  some (pk, (⟨data, q1 + k, dc2⟩ : Decoder))
                rw [himpl]
                rfl
              refine ⟨dc2, ?_, hok2⟩
              rw [hwp]
              rfl
          · rw [if_neg hv] at h; cases h
      · rw [if_neg hb] at h
        cases hs : sdecodePredicateKind fuel data q1 with
        | none => simp only [hs] at h; cases h
        | some pq =>
          obtain ⟨pk, q0⟩ := pq
          simp only [hs, Option.map_some', Option.some.injEq, Prod.mk.injEq] at h
          obtain ⟨rfl, rfl⟩ := h
          have hposb : Decoder.positioned_at_shorthand ⟨data, q1, dc⟩ = false := by
            simp [Decoder.positioned_at_shorthand, hh, hb]
          obtain ⟨dc2, himpl, hok2⟩ := decodePredicateKind_complete hs hok
          refine ⟨dc2, ?_, hok2⟩
          simp only [hposb, Bool.false_eq_true, if_false, himpl]
          rfl

/-- Completeness of the stateful `decodeConstS` (and `decodeConst`). -/
theorem decodeConstS_complete {fuel : Nat} {data : List Nat} {p : Nat}
    {c : ConstS} {q : Nat} {dc : List (Nat × TyKind)}
    (h : sdecodeConstS fuel data p = some (c, q)) (hok : DecCacheOk data dc) :
    ∃ dc2, decodeConstS fuel ⟨data, p, dc⟩ = some (c, ⟨data, q, dc2⟩) ∧
      DecCacheOk data dc2 := by
  simp only [sdecodeConstS] at h
  cases hs : sdecodeTy fuel data p with
  | none => simp only [hs] at h; cases h
  | some tq =>
    obtain ⟨t0, q0⟩ := tq
    simp only [hs] at h
    cases hr : leb128Read (data.drop q0) with
    | none => simp only [hr] at h; cases h
    | some vk =>
      obtain ⟨v, k⟩ := vk
      simp only [hr, Option.map_some', Option.some.injEq, Prod.mk.injEq] at h
      obtain ⟨rfl, rfl⟩ := h
      obtain ⟨dc2, himpl, hok2⟩ := decodeTy_complete hs hok
      have hru : Decoder.read_usize ⟨data, q0, dc2⟩ = some (v, ⟨data, q0 + k, dc2⟩) := by
        simp [Decoder.read_usize, hr]
      refine ⟨dc2, ?_, hok2⟩
      simp only [decodeConstS, himpl, hru]
      rfl

/-! ### The claims -/

/-- An empty position-to-type cache is coherent with any buffer. -/
theorem DecCacheOk_nil (data : List Nat) : DecCacheOk data [] := by
  intro pv hpv
  cases hpv

/-- Claim C1: for every supported entity kind (types, binder-wrapped
predicates, regions, constants) and every value of that kind — including
deeply nested values — decoding the bytes produced by encoding the value in
a fresh session yields a handle structurally equal to the value. -/
theorem c1_roundtrip_all_kinds :
    (∀ t : TyKind, ∃ e2 fuel d2,
      encodeTy t encInit = some e2 ∧ decodeTy fuel (decInit e2.data) = some (t, d2))
    ∧ (∀ b : BinderPredicate, ∃ e2 fuel d2,
      encodeBinderPredicate b encInit = some e2 ∧
        decodeBinderPredicate fuel (decInit e2.data) = some (b, d2))
    ∧ (∀ r : RegionKind, ∃ d2,
      decodeRegion (decInit (encodeRegion r encInit).data) = some (r, d2))
    ∧ (∀ c : ConstS, ∃ e2 fuel d2,
      encodeConst c encInit = some e2 ∧ decodeConst fuel (decInit e2.data) = some (c, d2)) := by
  refine ⟨?_, ?_, ?_, ?_⟩
  · intro t
    obtain ⟨e2, he⟩ := encodeTy_total t encInit
    obtain ⟨_, _, fuel, hs⟩ := encodeTy_ok t EncInv_init he
    have hs0 : sdecodeTy fuel e2.data 0 = some (t, e2.data.length) := hs
    obtain ⟨dc2, himpl, _⟩ := decodeTy_complete hs0 (DecCacheOk_nil e2.data)
    exact ⟨e2, fuel, _, he, himpl⟩
  · intro b
    obtain ⟨e2, he⟩ := encodeBinderPredicate_total b encInit
    obtain ⟨_, _, fuel, hs⟩ := encodeBinderPredicate_ok b EncInv_init he
    have hs0 : sdecodeBinderPredicate fuel e2.data 0 = some (b, e2.data.length) := hs
    obtain ⟨dc2, himpl, _⟩ := decodeBinderPredicate_complete hs0 (DecCacheOk_nil e2.data)
    exact ⟨e2, fuel, _, he, himpl⟩
  · intro r
    obtain ⟨_, _, _, _, hsd⟩ := encodeRegionKind_ok r encInit
    have hsd0 : sdecodeRegionKind (encodeRegion r encInit).data 0 =
        some (r, (encodeRegion r encInit).data.length) := hsd
    refine ⟨⟨(encodeRegion r encInit).data, (encodeRegion r encInit).data.length, []⟩, ?_⟩
    show decodeRegion (⟨(encodeRegion r encInit).data, 0, []⟩ : Decoder) = _
    unfold decodeRegion
    rw [decodeRegionKind_eq, hsd0]
    rfl
  · intro c
    obtain ⟨e2, he⟩ := encodeConstS_total c encInit
    obtain ⟨_, _, fuel, hs⟩ := encodeConstS_ok c EncInv_init he
    have hs0 : sdecodeConstS fuel e2.data 0 = some (c, e2.data.length) := hs
    obtain ⟨dc2, himpl, _⟩ := decodeConstS_complete hs0 (DecCacheOk_nil e2.data)
    refine ⟨e2, fuel, ⟨e2.data, e2.data.length, dc2⟩, he, ?_⟩
    show (decodeConstS fuel (decInit e2.data)).map (fun cd => (mk_const cd.1, cd.2)) = _
    have himpl2 : decodeConstS fuel (decInit e2.data) =
        some (c, ⟨e2.data, e2.data.length, dc2⟩) := himpl
    rw [himpl2]
    rfl

/-- Claim C2 as stated is false on the code: `TyKind.bool` has a one-byte
payload, and at stream offset 0 the obvious-win test rejects caching it
(`0 + 0x80 = 128` does not fit in `2 ^ 7` bits), so the cache stays empty
and the second encode of a structurally equal value re-emits the full
payload: the stream is `[0, 0]` — the second occurrence is the same single
byte below `0x80`, not a back-reference, and not strictly smaller than the
first. -/
theorem c2_counterexample :
    encodeTy .bool encInit = some ⟨[0], [], [], []⟩ ∧
    encodeTy .bool ⟨[0], [], [], []⟩ = some ⟨[0, 0], [], [], []⟩ ∧
    (([0, 0] : List Nat).drop 1 = [0] ∧
      ¬ (([0, 0] : List Nat).drop 1).length < (([0, 0] : List Nat).take 1).length ∧
      ∀ x ∈ ([0, 0] : List Nat).drop 1, x < SHORTHAND_OFFSET) := by
  decide

/-- Claim C2, amended: when the first encode of a value did record the
shorthand (the obvious-win condition holds and the cache maps the value to
`start + SHORTHAND_OFFSET`), the second call emits only the back-reference —
a single variable-length integer, no payload bytes, every cache unchanged —
whose size never exceeds the first occurrence's payload; and decoding either
occurrence yields the same (structurally equal) handle. -/
theorem c2_amended (t : TyKind) (e e1 : Encoder)
    (hinv : EncInv e)
    (henc1 : encodeTy t e = some e1)
    (hcached : cacheLookup e1.typeShorthands t =
      some (e.data.length + SHORTHAND_OFFSET))
    (hreal : e.data.length + SHORTHAND_OFFSET < 2 ^ 64)
    (hwin : (e1.data.length - e.data.length) * 7 ≥ 64 ∨
      e.data.length + SHORTHAND_OFFSET < 2 ^ ((e1.data.length - e.data.length) * 7)) :
    encodeTy t e1 = some (e1.emit_usize (e.data.length + SHORTHAND_OFFSET)) ∧
    (e1.emit_usize (e.data.length + SHORTHAND_OFFSET)).data =
      e1.data ++ leb128Write (e.data.length + SHORTHAND_OFFSET) ∧
    (e1.emit_usize (e.data.length + SHORTHAND_OFFSET)).typeShorthands = e1.typeShorthands ∧
    (leb128Write (e.data.length + SHORTHAND_OFFSET)).length ≤
      e1.data.length - e.data.length ∧
    ∃ fuel d1 d2,
      decodeTy fuel ⟨(e1.emit_usize (e.data.length + SHORTHAND_OFFSET)).data,
        e.data.length, []⟩ = some (t, d1) ∧
      decodeTy fuel ⟨(e1.emit_usize (e.data.length + SHORTHAND_OFFSET)).data,
        e1.data.length, []⟩ = some (t, d2) := by
  obtain ⟨⟨w, hw, hwne⟩, hinv1, fuel1, hs1⟩ := encodeTy_ok t hinv henc1
  have hlt : e.data.length < e1.data.length := by
    rw [hw, List.length_append]
    cases w with
    | nil => exact absurd rfl hwne
    | cons x xs => simp
  have henc2 : encodeTy t e1 = some (e1.emit_usize (e.data.length + SHORTHAND_OFFSET)) := by
    unfold encodeTy
    exact encode_with_shorthand_hit _ _ _ _ hcached
  obtain ⟨_, hinv2, fuel2, hs2⟩ := encodeTy_ok t hinv1 henc2
  refine ⟨henc2, rfl, rfl, ?_, ?_⟩
  · rcases hwin with hbig | hfit
    · have h10 : e.data.length + SHORTHAND_OFFSET < 2 ^ (7 * 10) := by
        calc e.data.length + SHORTHAND_OFFSET < 2 ^ 64 := hreal
        _ ≤ 2 ^ (7 * 10) := by norm_num
      have := leb128Write_length_le (by omega : (0:Nat) < 10) h10
      omega
    · have hpos : 0 < e1.data.length - e.data.length := by omega
      have := leb128Write_length_le hpos (by
        have h7 : (e1.data.length - e.data.length) * 7 = 7 * (e1.data.length - e.data.length) := by
          omega
        rw [← h7]
        exact hfit)
      exact this
  · have hs1x : sdecodeTy fuel1 (e1.emit_usize (e.data.length + SHORTHAND_OFFSET)).data
        e.data.length = some (t, e1.data.length) := by
      show sdecodeTy fuel1 (e1.data ++ leb128Write (e.data.length + SHORTHAND_OFFSET))
        e.data.length = _
      exact sdecodeTy_append hs1
    obtain ⟨dcA, hA, _⟩ := decodeTy_complete
      (sdecodeTy_mono (Nat.le_max_left fuel1 fuel2) hs1x)
      (DecCacheOk_nil (e1.emit_usize (e.data.length + SHORTHAND_OFFSET)).data)
    obtain ⟨dcB, hB, _⟩ := decodeTy_complete
      (sdecodeTy_mono (Nat.le_max_right fuel1 fuel2) hs2)
      (DecCacheOk_nil (e1.emit_usize (e.data.length + SHORTHAND_OFFSET)).data)
    exact ⟨max fuel1 fuel2, _, _, hA, hB⟩

/-- Modelled from the spec: the Region encoding that claim C3 asserts —
`encode_with_shorthand` keyed to a dedicated per-Region cache on the encoder
(spec §4.4).  The code (codec.rs lines 131-135) instead encodes the region's
kind plainly; this definition exists only to compare the asserted behavior
with the code's. -/
def encodeRegion_asSpecified (r : RegionKind) (e : Encoder) : Option Encoder :=
  encode_with_shorthand Encoder.regionShorthands Encoder.setRegionShorthands
    (regionDiscr r) (some (encodeRegionKind r e)) r e

/-- Claim C3 is false for regions (and constants): the code's
`impl Encodable for Region` re-emits the full 11-byte payload on the second
encode of the same region and records nothing in any cache, while the
spec-asserted shorthand encoding emits a 2-byte back-reference the second
time.  (`9223372036854775808 = 2^63`, making the payload long enough that
the obvious-win test would certainly cache it.) -/
theorem c3_counterexample :
    encodeRegion (.reVar 9223372036854775808)
        (encodeRegion (.reVar 9223372036854775808) encInit) =
      ⟨[1, 128, 128, 128, 128, 128, 128, 128, 128, 128, 1,
        1, 128, 128, 128, 128, 128, 128, 128, 128, 128, 1], [], [], []⟩ ∧
    encodeRegion_asSpecified (.reVar 9223372036854775808) encInit =
      some ⟨[1, 128, 128, 128, 128, 128, 128, 128, 128, 128, 1], [], [],
        [(.reVar 9223372036854775808, 128)]⟩ ∧
    encodeRegion_asSpecified (.reVar 9223372036854775808)
        ⟨[1, 128, 128, 128, 128, 128, 128, 128, 128, 128, 1], [], [],
          [(.reVar 9223372036854775808, 128)]⟩ =
      some ⟨[1, 128, 128, 128, 128, 128, 128, 128, 128, 128, 1, 128, 1], [], [],
        [(.reVar 9223372036854775808, 128)]⟩ := by
  decide

/-- Claim C3, amended: `Ty` delegates to `encode_with_shorthand` keyed to
the encoder's type cache, and `Binder<PredicateKind>` (hence `Predicate`)
delegates to it for the body, keyed to the predicate cache — a hit emits
only the cached back-reference.  `Region` and `Const`, however, have no
dedicated cache: a region encode is exactly the plain recursive encode of
its kind with every cache untouched, and a constant re-emits its value
payload bytes in full on every encode. -/
theorem c3_amended :
    (∀ (t : TyKind) (e : Encoder) (sh : Nat),
      cacheLookup e.typeShorthands t = some sh →
      encodeTy t e = some (e.emit_usize sh)) ∧
    (∀ (b : BinderPredicate) (e : Encoder) (sh : Nat),
      cacheLookup e.predicateShorthands b.body = some sh →
      encodeBinderPredicate b e = some ((encodeBoundVars b.boundVars e).emit_usize sh)) ∧
    (∀ (r : RegionKind) (e : Encoder),
      encodeRegion r e = encodeRegionKind r e ∧
      (encodeRegion r e).typeShorthands = e.typeShorthands ∧
      (encodeRegion r e).predicateShorthands = e.predicateShorthands ∧
      (encodeRegion r e).regionShorthands = e.regionShorthands) ∧
    (∀ (c : ConstS) (e e2 : Encoder),
      EncInv e → encodeConst c e = some e2 →
      ∃ w, e2.data = e.data ++ w ++ leb128Write c.val) := by
  refine ⟨?_, ?_, ?_, ?_⟩
  · intro t e sh hc
    unfold encodeTy
    exact encode_with_shorthand_hit _ _ _ _ hc
  · intro b e sh hc
    rw [encodeBinderPredicate_eq]
    have hc2 : cacheLookup (encodeBoundVars b.boundVars e).predicateShorthands b.body =
        some sh := by
      rw [encodeBoundVars_eq]
      exact hc
    exact encode_with_shorthand_hit _ _ _ _ hc2
  · intro r e
    obtain ⟨_, ht, hp, hr, _⟩ := encodeRegionKind_ok r e
    exact ⟨rfl, ht, hp, hr⟩
  · intro c e e2 hinv henc
    unfold encodeConst encodeConstS at henc
    cases ht : encodeTy c.ty e with
    | none => simp only [ht] at henc; cases henc
    | some et =>
      simp only [ht, Option.map_some'] at henc
      obtain rfl : et.emit_usize c.val = e2 := Option.some.inj henc
      obtain ⟨⟨w, hw, _⟩, _⟩ := encodeTy_ok c.ty hinv ht
      exact ⟨w, by show et.data ++ leb128Write c.val = _; rw [hw]⟩

/-- Witness for the amended C2: `uint 2^63` has an 11-byte payload, so a
fresh encode caches it (`11 * 7 ≥ 64`), and the second encode emits only the
2-byte back-reference, which is no larger than the payload. -/
theorem c2_amended_witness :
    encodeTy (.uint 9223372036854775808)
        ⟨[1, 128, 128, 128, 128, 128, 128, 128, 128, 128, 1],
          [(.uint 9223372036854775808, 128)], [], []⟩ =
      some ((⟨[1, 128, 128, 128, 128, 128, 128, 128, 128, 128, 1],
          [(.uint 9223372036854775808, 128)], [], []⟩ : Encoder).emit_usize
        (encInit.data.length + SHORTHAND_OFFSET)) ∧
    (leb128Write (encInit.data.length + SHORTHAND_OFFSET)).length ≤
      (⟨[1, 128, 128, 128, 128, 128, 128, 128, 128, 128, 1],
        [(.uint 9223372036854775808, 128)], [], []⟩ : Encoder).data.length -
        encInit.data.length :=
  have h := c2_amended (.uint 9223372036854775808) encInit
    ⟨[1, 128, 128, 128, 128, 128, 128, 128, 128, 128, 1],
      [(.uint 9223372036854775808, 128)], [], []⟩
    EncInv_init (by decide) (by decide) (by decide) (by decide)
  ⟨h.1, h.2.2.2.1⟩

/-- Witness for the amended C3: a cached type and a cached predicate body
are emitted as back-references; a region encode is the plain kind encode;
a constant encode ends with the full value payload. -/
theorem c3_amended_witness :
    encodeTy (.ref .bool) ⟨[3, 2, 0], [(.ref .bool, 129)], [], []⟩ =
      some ((⟨[3, 2, 0], [(.ref .bool, 129)], [], []⟩ : Encoder).emit_usize 129) ∧
    encodeBinderPredicate ⟨[], .ambiguous⟩ ⟨[], [], [(.ambiguous, 130)], []⟩ =
      some ((encodeBoundVars [] ⟨[], [], [(.ambiguous, 130)], []⟩).emit_usize 130) ∧
    encodeRegion .reStatic encInit = encodeRegionKind .reStatic encInit ∧
    ∃ w, (⟨[0, 7], [], [], []⟩ : Encoder).data = encInit.data ++ w ++ leb128Write 7 :=
  have h := c3_amended
  ⟨h.1 _ _ _ (by decide), h.2.1 _ _ _ (by decide), (h.2.2.1 .reStatic encInit).1,
    h.2.2.2 ⟨.bool, 7⟩ encInit ⟨[0, 7], [], [], []⟩ EncInv_init (by decide)⟩

/-- Claim C4: on a cache miss (with a sound discriminant, at a realistic
stream offset) `encode_with_shorthand` inserts `(value, start + THRESHOLD)`
into the cache exactly when `len * 7 ≥ 64` or
`start + THRESHOLD < 2 ^ (len * 7)`; otherwise the payload stands alone and
nothing is cached.  In particular a one-byte payload at stream offset 0 is
never cached, so encoding `bool` twice produces two full copies and no
back-reference. -/
theorem c4_threshold_policy :
    (∀ (T : Type) (_ : DecidableEq T)
      (getCache : Encoder → List (T × Nat)) (setCache : Encoder → List (T × Nat) → Encoder)
      (discriminant : Nat) (value : T) (e e1 : Encoder),
      cacheLookup (getCache e) value = none →
      discriminant < SHORTHAND_OFFSET →
      e.position + SHORTHAND_OFFSET < 2 ^ 64 →
      (((e1.position - e.position) * 7 ≥ 64 ∨
          e.position + SHORTHAND_OFFSET < 2 ^ ((e1.position - e.position) * 7)) →
        encode_with_shorthand getCache setCache discriminant (some e1) value e =
          some (setCache e1 (cacheInsert (getCache e1) value
            (e.position + SHORTHAND_OFFSET)))) ∧
      (¬ ((e1.position - e.position) * 7 ≥ 64 ∨
          e.position + SHORTHAND_OFFSET < 2 ^ ((e1.position - e.position) * 7)) →
        encode_with_shorthand getCache setCache discriminant (some e1) value e = some e1)) ∧
    (encodeTy .bool encInit = some ⟨[0], [], [], []⟩ ∧
      encodeTy .bool ⟨[0], [], [], []⟩ = some ⟨[0, 0], [], [], []⟩) := by
  refine ⟨?_, by decide, by decide⟩
  intro T _ getCache setCache d v e e1 hc hd hreal
  have hmod : (e.position + SHORTHAND_OFFSET) % 2 ^ 64 = e.position + SHORTHAND_OFFSET :=
    Nat.mod_eq_of_lt hreal
  constructor
  · intro hcond
    apply encode_with_shorthand_miss_insert getCache setCache hc hd
    rw [hmod]
    exact hcond
  · intro hcond
    apply encode_with_shorthand_miss_nocache getCache setCache hc hd
    rw [hmod]
    exact hcond

/-- Witness for C4: with the type cache, a 10-byte payload at offset 0 is
cached under shorthand 128, while a 1-byte payload at offset 0 is not. -/
theorem c4_witness :
    encode_with_shorthand Encoder.typeShorthands Encoder.setTypeShorthands 0
        (some ⟨[0, 0, 0, 0, 0, 0, 0, 0, 0, 0], [], [], []⟩) TyKind.bool encInit =
      some (Encoder.setTypeShorthands ⟨[0, 0, 0, 0, 0, 0, 0, 0, 0, 0], [], [], []⟩
        (cacheInsert ([] : List (TyKind × Nat)) TyKind.bool
          (encInit.position + SHORTHAND_OFFSET))) ∧
    encode_with_shorthand Encoder.typeShorthands Encoder.setTypeShorthands 0
        (some ⟨[0], [], [], []⟩) TyKind.bool encInit = some ⟨[0], [], [], []⟩ :=
  have h := c4_threshold_policy
  have h1 := h.1 TyKind inferInstance Encoder.typeShorthands Encoder.setTypeShorthands 0
    TyKind.bool encInit ⟨[0, 0, 0, 0, 0, 0, 0, 0, 0, 0], [], [], []⟩
    (by decide) (by decide) (by decide)
  have h2 := h.1 TyKind inferInstance Encoder.typeShorthands Encoder.setTypeShorthands 0
    TyKind.bool encInit ⟨[0], [], [], []⟩
    (by decide) (by decide) (by decide)
  ⟨h1.1 (by decide), h2.2 (by decide)⟩

/-- Claim C5 is false as stated in its last clause: for the binder
`⟨bound_vars = [], body = ambiguous⟩` the body is a one-byte payload that
the obvious-win test refuses to cache, so the second occurrence of the equal
binder re-encodes the body in full (`[0, 0]` then `[0, 0]` again — every
byte below `0x80`, no back-reference anywhere) instead of emitting a
back-reference for it. -/
theorem c5_counterexample :
    encodeBinderPredicate ⟨[], .ambiguous⟩ encInit = some ⟨[0, 0], [], [], []⟩ ∧
    encodeBinderPredicate ⟨[], .ambiguous⟩ ⟨[0, 0], [], [], []⟩ =
      some ⟨[0, 0, 0, 0], [], [], []⟩ ∧
    ∀ x ∈ ([0, 0, 0, 0] : List Nat), x < SHORTHAND_OFFSET := by
  decide

/-- Claim C5, amended: a binder always encodes its bound-variable list first
and in full (never as a shorthand), and decodes it first; shorthand logic
applies only to the body payload that follows.  A second occurrence of an
equal binder re-encodes the bound-variable list in full while its body is
emitted as a back-reference, provided the body was cached by the first
occurrence. -/
theorem c5_amended :
    (∀ (b : BinderPredicate) (e e2 : Encoder),
      EncInv e → encodeBinderPredicate b e = some e2 →
      ∃ w, e2.data = e.data ++ bvEncBytes b.boundVars ++ w) ∧
    (∀ (fuel : Nat) (d : Decoder) (b : BinderPredicate) (d2 : Decoder),
      decodeBinderPredicate fuel d = some (b, d2) →
      ∃ d1, decodeBoundVars d = some (b.boundVars, d1)) ∧
    (∀ (b : BinderPredicate) (e : Encoder) (sh : Nat),
      cacheLookup e.predicateShorthands b.body = some sh →
      encodeBinderPredicate b e = some ((encodeBoundVars b.boundVars e).emit_usize sh) ∧
      ((encodeBoundVars b.boundVars e).emit_usize sh).data =
        e.data ++ bvEncBytes b.boundVars ++ leb128Write sh) := by
  refine ⟨?_, ?_, ?_⟩
  · intro b e e2 hinv henc
    rw [encodeBinderPredicate_eq] at henc
    have he1 : encodeBoundVars b.boundVars e =
        { e with data := e.data ++ bvEncBytes b.boundVars } := encodeBoundVars_eq b.boundVars e
    have hinv1 : EncInv (encodeBoundVars b.boundVars e) := by
      refine EncInv_extend hinv (bvEncBytes b.boundVars) ?_ ?_ ?_ <;> rw [he1]
    cases hc : cacheLookup (encodeBoundVars b.boundVars e).predicateShorthands b.body with
    | some sh =>
      rw [encode_with_shorthand_hit _ _ _ _ hc] at henc
      obtain rfl : (encodeBoundVars b.boundVars e).emit_usize sh = e2 := Option.some.inj henc
      refine ⟨leb128Write sh, ?_⟩
      show (encodeBoundVars b.boundVars e).data ++ leb128Write sh = _
      rw [he1]
    | none =>
      rw [show Encoder.predicateShorthands = (fun e : Encoder => e.predicateShorthands)
        from rfl] at henc
      simp only [encode_with_shorthand, hc] at henc
      cases hp : encodePredicateKind b.body (encodeBoundVars b.boundVars e) with
      | none => simp only [hp] at henc; cases henc
      | some ep =>
        simp only [hp] at henc
        obtain ⟨⟨w, hw, _⟩, _⟩ := encodePredicateKind_ok b.body hinv1 hp
        rw [if_pos (by have := predDiscr_lt b.body; omega)] at henc
        have hep : ep.data = e.data ++ bvEncBytes b.boundVars ++ w := by
          rw [hw, he1]
        by_cases hcond : (ep.position - (encodeBoundVars b.boundVars e).position) * 7 ≥ 64 ∨
            ((encodeBoundVars b.boundVars e).position + SHORTHAND_OFFSET) % 2 ^ 64 <
              2 ^ ((ep.position - (encodeBoundVars b.boundVars e).position) * 7)
        · rw [if_pos hcond] at henc
          obtain rfl := Option.some.inj henc
          exact ⟨w, hep⟩
        · rw [if_neg hcond] at henc
          obtain rfl : ep = e2 := Option.some.inj henc
          exact ⟨w, hep⟩
  · intro fuel d b d2 hdec
    unfold decodeBinderPredicate at hdec
    cases hbv : decodeBoundVars d with
    | none => simp only [hbv] at hdec; cases hdec
    | some bvd =>
      obtain ⟨bv, d1⟩ := bvd
      simp only [hbv] at hdec
      refine ⟨d1, ?_⟩
      by_cases hpos : d1.positioned_at_shorthand
      · rw [if_pos hpos] at hdec
        cases hru : d1.read_usize with
        | none => simp only [hru] at hdec; cases hdec
        | some pd =>
          obtain ⟨pos, d3⟩ := pd
          simp only [hru] at hdec
          by_cases hv : SHORTHAND_OFFSET ≤ pos
          · rw [if_pos hv] at hdec
            cases hwp : d3.with_position (pos - SHORTHAND_OFFSET) (decodePredicateKind fuel) with
            | none => simp only [hwp] at hdec; cases hdec
            | some pk =>
              simp only [hwp, Option.map_some', Option.some.injEq, Prod.mk.injEq] at hdec
              obtain ⟨h1, _⟩ := hdec
              subst h1
              rfl
          · rw [if_neg hv] at hdec; cases hdec
      · rw [if_neg hpos] at hdec
        cases hpk : decodePredicateKind fuel d1 with
        | none => simp only [hpk] at hdec; cases hdec
        | some pk =>
          simp only [hpk, Option.map_some', Option.some.injEq, Prod.mk.injEq] at hdec
          obtain ⟨h1, _⟩ := hdec
          subst h1
          rfl
  · intro b e sh hc
    have he1 : encodeBoundVars b.boundVars e =
        { e with data := e.data ++ bvEncBytes b.boundVars } := encodeBoundVars_eq b.boundVars e
    have hc2 : cacheLookup (encodeBoundVars b.boundVars e).predicateShorthands b.body =
        some sh := by
      rw [he1]
      exact hc
    constructor
    · rw [encodeBinderPredicate_eq]
      exact encode_with_shorthand_hit _ _ _ _ hc2
    · show (encodeBoundVars b.boundVars e).data ++ leb128Write sh = _
      rw [he1]

/-- Witness for the amended C5: a binder with one bound variable and a
cachable body; a binder decode reading its bound variables first; and a
cached body emitted as a back-reference after the full bound-variable
list. -/
theorem c5_amended_witness :
    (∃ w, (⟨[1, 0, 2, 0, 0], [],
        [(.regionOutlives .reStatic .reStatic, 130)], []⟩ : Encoder).data =
      encInit.data ++ bvEncBytes [.bvRegion] ++ w) ∧
    (∃ d1, decodeBoundVars (decInit [0, 0]) =
      some (([] : List BoundVariableKind), d1)) ∧
    encodeBinderPredicate ⟨[], .ambiguous⟩ ⟨[], [], [(.ambiguous, 130)], []⟩ =
      some ((encodeBoundVars [] ⟨[], [], [(.ambiguous, 130)], []⟩).emit_usize 130) :=
  have h := c5_amended
  ⟨h.1 ⟨[.bvRegion], .regionOutlives .reStatic .reStatic⟩ encInit
      ⟨[1, 0, 2, 0, 0], [], [(.regionOutlives .reStatic .reStatic, 130)], []⟩
      EncInv_init (by decide),
   h.2.1 5 (decInit [0, 0]) ⟨[], .ambiguous⟩ ⟨[0, 0], 2, []⟩ (by decide),
   (h.2.2 ⟨[], .ambiguous⟩ ⟨[], [], [(.ambiguous, 130)], []⟩ 130 (by decide)).1⟩

/-- Claim C6 is false in its final clause: binder-wrapped predicates are a
shorthand-capable kind, yet the decoder caches nothing for them.  Encoding
the same binder twice yields `[1,0,2,0,0, 1,0,130,1]` — the second binder at
offset 5 carries the back-reference `130` to the body at offset 2 — and
decoding the second binder from an empty decoder state returns the right
value but leaves the position-to-entity cache empty: the decoded body was
not cached under position 2. -/
theorem c6_counterexample :
    encodeBinderPredicate ⟨[.bvRegion], .regionOutlives .reStatic .reStatic⟩ encInit =
      some ⟨[1, 0, 2, 0, 0], [], [(.regionOutlives .reStatic .reStatic, 130)], []⟩ ∧
    encodeBinderPredicate ⟨[.bvRegion], .regionOutlives .reStatic .reStatic⟩
        ⟨[1, 0, 2, 0, 0], [], [(.regionOutlives .reStatic .reStatic, 130)], []⟩ =
      some ⟨[1, 0, 2, 0, 0, 1, 0, 130, 1], [],
        [(.regionOutlives .reStatic .reStatic, 130)], []⟩ ∧
    decodeBinderPredicate 5 ⟨[1, 0, 2, 0, 0, 1, 0, 130, 1], 5, []⟩ =
      some (⟨[.bvRegion], .regionOutlives .reStatic .reStatic⟩,
        ⟨[1, 0, 2, 0, 0, 1, 0, 130, 1], 9, []⟩) := by
  decide

/-- Claim C6, amended: when the decoder sits at a shorthand marker it reads
the offset and subtracts the threshold.  For types it then consults the
per-decoder position-to-type cache: a hit returns the cached handle with the
cursor just past the marker and the cache unchanged; a miss decodes the full
payload at the recovered position, restores the cursor, and caches the
result keyed by that position.  For binder-wrapped predicate bodies the
decoder seeks, decodes, and restores the cursor in the same way, but caches
nothing — no position-to-predicate cache exists. -/
theorem c6_amended :
    (∀ (d d1 : Decoder) (pos : Nat) (t : TyKind) (fuel : Nat),
      d.positioned_at_shorthand = true →
      d.read_usize = some (pos, d1) →
      SHORTHAND_OFFSET ≤ pos →
      cacheLookup d1.tyShorthandCache (pos - SHORTHAND_OFFSET) = some t →
      decodeTy (fuel + 1) d = some (t, d1)) ∧
    (∀ (d d1 : Decoder) (pos : Nat) (t : TyKind) (fuel : Nat) (d2 : Decoder),
      d.positioned_at_shorthand = true →
      d.read_usize = some (pos, d1) →
      SHORTHAND_OFFSET ≤ pos →
      cacheLookup d1.tyShorthandCache (pos - SHORTHAND_OFFSET) = none →
      decodeTy fuel ⟨d1.data, pos - SHORTHAND_OFFSET, d1.tyShorthandCache⟩ = some (t, d2) →
      decodeTy (fuel + 1) d = some (t,
        (⟨d2.data, d1.pos, cacheInsert d2.tyShorthandCache (pos - SHORTHAND_OFFSET) t⟩ :
          Decoder))) ∧
    (∀ (d d1 d3 : Decoder) (bv : List BoundVariableKind) (pos : Nat)
       (pk : PredicateKind) (fuel : Nat) (dp : Decoder),
      decodeBoundVars d = some (bv, d1) →
      d1.positioned_at_shorthand = true →
      d1.read_usize = some (pos, d3) →
      SHORTHAND_OFFSET ≤ pos →
      decodePredicateKind fuel ⟨d3.data, pos - SHORTHAND_OFFSET, d3.tyShorthandCache⟩ =
        some (pk, dp) →
      decodeBinderPredicate fuel d = some (bind_with_vars pk bv, { dp with pos := d3.pos })) := by
  refine ⟨?_, ?_, ?_⟩
  · intro d d1 pos t fuel hposb hru hv hcc
    simp only [decodeTy, hposb, if_true, hru]
    rw [if_pos hv]
    simp [Decoder.cached_ty_for_shorthand, hcc]
  · intro d d1 pos t fuel d2 hposb hru hv hcc hdec
    simp only [decodeTy, hposb, if_true, hru]
    rw [if_pos hv]
    simp only [Decoder.cached_ty_for_shorthand, hcc]
    have hwp : d1.with_position (pos - SHORTHAND_OFFSET) (decodeTy fuel) =
        some (t, (⟨d2.data, d1.pos, d2.tyShorthandCache⟩ : Decoder)) := by
      show (decodeTy fuel
            (⟨d1.data, pos - SHORTHAND_OFFSET, d1.tyShorthandCache⟩ : Decoder)).map
          (fun ad => (ad.1, (⟨ad.2.data, d1.pos, ad.2.tyShorthandCache⟩ : Decoder))) =
        some (t, (⟨d2.data, d1.pos, d2.tyShorthandCache⟩ : Decoder))
      rw [hdec]
      rfl
    rw [hwp]
    rfl
  · intro d d1 d3 bv pos pk fuel dp hbv hposb hru hv hdec
    simp only [decodeBinderPredicate, hbv, hposb, if_true, hru]
    rw [if_pos hv]
    have hwp : d3.with_position (pos - SHORTHAND_OFFSET) (decodePredicateKind fuel) =
        some (pk, (⟨dp.data, d3.pos, dp.tyShorthandCache⟩ : Decoder)) := by
      show (decodePredicateKind fuel
            (⟨d3.data, pos - SHORTHAND_OFFSET, d3.tyShorthandCache⟩ : Decoder)).map
          (fun ad => (ad.1, (⟨ad.2.data, d3.pos, ad.2.tyShorthandCache⟩ : Decoder))) =
        some (pk, (⟨dp.data, d3.pos, dp.tyShorthandCache⟩ : Decoder))
      rw [hdec]
      rfl
    rw [hwp]
    rfl

/-- Witness for the amended C6: a type-shorthand cache hit, a type-shorthand
cache miss that decodes at the target and caches it by position, and a
binder body shorthand that restores the cursor and caches nothing. -/
theorem c6_amended_witness :
    decodeTy 1 ⟨[3, 2, 0, 129, 1], 3, [(1, .ref .bool)]⟩ =
      some (.ref .bool, ⟨[3, 2, 0, 129, 1], 5, [(1, .ref .bool)]⟩) ∧
    decodeTy 3 ⟨[0, 128, 1], 1, []⟩ =
      some (.bool, ⟨[0, 128, 1], 3, [(0, .bool)]⟩) ∧
    decodeBinderPredicate 0 ⟨[0, 0, 0, 129, 1], 2, []⟩ =
      some (bind_with_vars .ambiguous [], ⟨[0, 0, 0, 129, 1], 5, []⟩) :=
  have h := c6_amended
  ⟨h.1 ⟨[3, 2, 0, 129, 1], 3, [(1, .ref .bool)]⟩ ⟨[3, 2, 0, 129, 1], 5, [(1, .ref .bool)]⟩
      129 (.ref .bool) 0 (by decide) (by decide) (by decide) (by decide),
   h.2.1 ⟨[0, 128, 1], 1, []⟩ ⟨[0, 128, 1], 3, []⟩ 128 .bool 2 ⟨[0, 128, 1], 1, []⟩
      (by decide) (by decide) (by decide) (by decide) (by decide),
   h.2.2 ⟨[0, 0, 0, 129, 1], 2, []⟩ ⟨[0, 0, 0, 129, 1], 3, []⟩ ⟨[0, 0, 0, 129, 1], 5, []⟩
      [] 129 .ambiguous 0 ⟨[0, 0, 0, 129, 1], 2, []⟩
      (by decide) (by decide) (by decide) (by decide) (by decide)⟩

/-- Claim C7: back-references stay above the threshold and point strictly
backward.  In any session satisfying the encoder invariant — which a fresh
session does, and which every type, binder, and constant encode preserves —
every cached shorthand is `≥ SHORTHAND_OFFSET` and refers strictly before
the current stream end; on a cache hit the emitted back-reference therefore
refers strictly before its own emission position; and the decoder accepts a
shorthand marker only when the integer it reads is `≥ SHORTHAND_OFFSET`. -/
theorem c7_backrefs_backward :
    EncInv encInit ∧
    (∀ (t : TyKind) (e e2 : Encoder), EncInv e → encodeTy t e = some e2 → EncInv e2) ∧
    (∀ (b : BinderPredicate) (e e2 : Encoder), EncInv e →
      encodeBinderPredicate b e = some e2 → EncInv e2) ∧
    (∀ (c : ConstS) (e e2 : Encoder), EncInv e → encodeConstS c e = some e2 → EncInv e2) ∧
    (∀ (e : Encoder), EncInv e →
      (∀ ts ∈ e.typeShorthands,
        SHORTHAND_OFFSET ≤ ts.2 ∧ ts.2 - SHORTHAND_OFFSET < e.data.length) ∧
      (∀ ps ∈ e.predicateShorthands,
        SHORTHAND_OFFSET ≤ ps.2 ∧ ps.2 - SHORTHAND_OFFSET < e.data.length)) ∧
    (∀ (t : TyKind) (e : Encoder) (sh : Nat), EncInv e →
      cacheLookup e.typeShorthands t = some sh →
      encodeTy t e = some (e.emit_usize sh) ∧
        SHORTHAND_OFFSET ≤ sh ∧ sh - SHORTHAND_OFFSET < e.position) ∧
    (∀ (fuel : Nat) (d : Decoder) (r : TyKind × Decoder),
      d.positioned_at_shorthand = true → decodeTy fuel d = some r →
      ∃ pos d1, d.read_usize = some (pos, d1) ∧ SHORTHAND_OFFSET ≤ pos) := by
  refine ⟨EncInv_init, ?_, ?_, ?_, ?_, ?_, ?_⟩
  · intro t e e2 hinv henc
    exact (encodeTy_ok t hinv henc).2.1
  · intro b e e2 hinv henc
    exact (encodeBinderPredicate_ok b hinv henc).2.1
  · intro c e e2 hinv henc
    exact (encodeConstS_ok c hinv henc).2.1
  · intro e hinv
    constructor
    · intro ts hts
      obtain ⟨h1, h2, _⟩ := hinv.1 ts hts
      exact ⟨h1, h2⟩
    · intro ps hps
      obtain ⟨h1, h2, _⟩ := hinv.2 ps hps
      exact ⟨h1, h2⟩
  · intro t e sh hinv hc
    obtain ⟨h1, h2, _⟩ := hinv.1 (t, sh) (cacheLookup_mem hc)
    refine ⟨?_, h1, h2⟩
    unfold encodeTy
    exact encode_with_shorthand_hit _ _ _ _ hc
  · intro fuel d r hposb hdec
    cases fuel with
    | zero => simp [decodeTy] at hdec
    | succ fuel =>
      simp only [decodeTy, hposb, if_true] at hdec
      cases hru : d.read_usize with
      | none => simp only [hru] at hdec; cases hdec
      | some pd =>
        obtain ⟨pos, d1⟩ := pd
        simp only [hru] at hdec
        by_cases hv : SHORTHAND_OFFSET ≤ pos
        · exact ⟨pos, d1, rfl, hv⟩
        · rw [if_neg hv] at hdec; cases hdec

/-- Witness for C7: a session that has cached the type `uint 2^63` under
shorthand 128 satisfies the cache bounds, re-emits it as a back-reference to
a strictly earlier position, and the decoder accepts the marker `129` in
`[3, 2, 0, 129, 1]` only after checking it is at least the threshold. -/
theorem c7_witness :
    encodeTy (.uint 9223372036854775808)
        ⟨[1, 128, 128, 128, 128, 128, 128, 128, 128, 128, 1],
          [(.uint 9223372036854775808, 128)], [], []⟩ =
      some ((⟨[1, 128, 128, 128, 128, 128, 128, 128, 128, 128, 1],
          [(.uint 9223372036854775808, 128)], [], []⟩ : Encoder).emit_usize 128) ∧
    SHORTHAND_OFFSET ≤ 128 ∧
    128 - SHORTHAND_OFFSET <
      (⟨[1, 128, 128, 128, 128, 128, 128, 128, 128, 128, 1],
        [(.uint 9223372036854775808, 128)], [], []⟩ : Encoder).position ∧
    ∃ pos d1, (⟨[3, 2, 0, 129, 1], 3, []⟩ : Decoder).read_usize = some (pos, d1) ∧
      SHORTHAND_OFFSET ≤ pos :=
  have h := c7_backrefs_backward
  have hinv1 : EncInv ⟨[1, 128, 128, 128, 128, 128, 128, 128, 128, 128, 1],
      [(.uint 9223372036854775808, 128)], [], []⟩ := by
    have he := h.2.1 (.uint 9223372036854775808) encInit
      ⟨[1, 128, 128, 128, 128, 128, 128, 128, 128, 128, 1],
        [(.uint 9223372036854775808, 128)], [], []⟩ EncInv_init (by decide)
    exact he
  have hemit := h.2.2.2.2.2.1 (.uint 9223372036854775808)
    ⟨[1, 128, 128, 128, 128, 128, 128, 128, 128, 128, 1],
      [(.uint 9223372036854775808, 128)], [], []⟩ 128 hinv1 (by decide)
  have hacc := h.2.2.2.2.2.2 20 ⟨[3, 2, 0, 129, 1], 3, []⟩
    (.ref .bool, ⟨[3, 2, 0, 129, 1], 5, [(1, .ref .bool)]⟩) (by decide) (by decide)
  ⟨hemit.1, hemit.2.1, hemit.2.2, hacc⟩

/-- Claim C8: on every cache-miss path of `encode_with_shorthand` the
discriminant is checked against the threshold: a discriminant at or above
`SHORTHAND_OFFSET` aborts encoding (no result, nothing cached, no shorthand
recorded), and a discriminant below it lets encoding complete. -/
theorem c8_discriminant_assertion :
    (∀ (T : Type) (_ : DecidableEq T)
      (getCache : Encoder → List (T × Nat)) (setCache : Encoder → List (T × Nat) → Encoder)
      (discriminant : Nat) (value : T) (e e1 : Encoder),
      cacheLookup (getCache e) value = none →
      SHORTHAND_OFFSET ≤ discriminant →
      encode_with_shorthand getCache setCache discriminant (some e1) value e = none) ∧
    (∀ (T : Type) (_ : DecidableEq T)
      (getCache : Encoder → List (T × Nat)) (setCache : Encoder → List (T × Nat) → Encoder)
      (discriminant : Nat) (value : T) (e e1 : Encoder),
      cacheLookup (getCache e) value = none →
      discriminant < SHORTHAND_OFFSET →
      ∃ e2, encode_with_shorthand getCache setCache discriminant (some e1) value e = some e2) := by
  constructor
  · intro T _ getCache setCache d v e e1 hc hd
    exact encode_with_shorthand_miss_assert getCache setCache e1 hc hd
  · intro T _ getCache setCache d v e e1 hc hd
    exact encode_with_shorthand_total getCache setCache hd e1 v e

/-- Witness for C8: with an empty cache, a discriminant of 200 aborts the
encode while a discriminant of 5 completes it. -/
theorem c8_witness :
    encode_with_shorthand (fun _ => ([] : List (Nat × Nat))) (fun e _ => e) 200
        (some encInit) 0 encInit = none ∧
    ∃ e2, encode_with_shorthand (fun _ => ([] : List (Nat × Nat))) (fun e _ => e) 5
        (some encInit) 0 encInit = some e2 :=
  have h := c8_discriminant_assertion
  ⟨h.1 Nat inferInstance (fun _ => []) (fun e _ => e) 200 0 encInit encInit
      (by decide) (by decide),
   h.2 Nat inferInstance (fun _ => []) (fun e _ => e) 5 0 encInit encInit
      (by decide) (by decide)⟩

/-- Claim C9: for every decoder state, offset and nested decode,
`with_position` runs the nested decode with the cursor repositioned to the
offset, and when it returns, the decoder's cursor is exactly where it was
before the call, regardless of how many bytes the nested decode consumed. -/
theorem c9_with_position_frame :
    ∀ (A : Type) (d : Decoder) (p : Nat) (f : Decoder → Option (A × Decoder))
      (a : A) (d2 : Decoder),
      d.with_position p f = some (a, d2) →
      d2.pos = d.pos ∧ ∃ d1, f { d with pos := p } = some (a, d1) ∧
        d2 = { d1 with pos := d.pos } := by
  intro A d p f a d2 h
  unfold Decoder.with_position at h
  cases hf : f { d with pos := p } with
  | none => rw [hf] at h; cases h
  | some ad =>
    obtain ⟨a1, d1⟩ := ad
    rw [hf] at h
    simp only [Option.map_some', Option.some.injEq, Prod.mk.injEq] at h
    obtain ⟨rfl, rfl⟩ := h
    exact ⟨rfl, d1, rfl, rfl⟩

/-- Witness for C9: repositioning to offset 0, reading one integer there
(which moves the nested cursor), and coming back with the original cursor
position 1 intact. -/
theorem c9_witness :
    (⟨[5, 7], 1, []⟩ : Decoder).with_position 0 Decoder.read_usize =
      some (5, ⟨[5, 7], 1, []⟩) ∧
    ((⟨[5, 7], 1, []⟩ : Decoder)).pos = 1 :=
  ⟨by decide,
    (c9_with_position_frame Nat ⟨[5, 7], 1, []⟩ 0 Decoder.read_usize 5 ⟨[5, 7], 1, []⟩
      (by decide)).1⟩

/-- Claim C10: when the value is already in the selected cache,
`encode_with_shorthand` writes exactly one variable-length integer (the
cached shorthand) and returns: the buffer grows by just those bytes, every
cache field is unchanged, no payload bytes are emitted (the payload is not
consulted — it may even be `none`), and the discriminant assertion is not
evaluated (the call succeeds for any discriminant, including ones at or
above the threshold). -/
theorem c10_hit_frame :
    ∀ (T : Type) (_ : DecidableEq T)
      (getCache : Encoder → List (T × Nat)) (setCache : Encoder → List (T × Nat) → Encoder)
      (discriminant : Nat) (payload : Option Encoder) (value : T) (e : Encoder) (sh : Nat),
      cacheLookup (getCache e) value = some sh →
      encode_with_shorthand getCache setCache discriminant payload value e =
        some (⟨e.data ++ leb128Write sh, e.typeShorthands, e.predicateShorthands,
          e.regionShorthands⟩ : Encoder) := by
  intro T _ getCache setCache d payload v e sh hc
  exact encode_with_shorthand_hit getCache setCache d payload hc

/-- Witness for C10: a hit emits just the two back-reference bytes and
leaves the caches alone even though the discriminant is 200 (at or above the
threshold) and the payload is `none`. -/
theorem c10_witness :
    encode_with_shorthand Encoder.typeShorthands Encoder.setTypeShorthands 200 none
        TyKind.bool ⟨[0], [(TyKind.bool, 130)], [], []⟩ =
      some ⟨[0, 130, 1], [(TyKind.bool, 130)], [], []⟩ :=
  have h := c10_hit_frame TyKind inferInstance Encoder.typeShorthands
    Encoder.setTypeShorthands 200 none TyKind.bool ⟨[0], [(TyKind.bool, 130)], [], []⟩ 130
    (by decide)
  by
    rw [h]
    decide
